import Mathlib

/-!
Verification of the chunked group-reduction engine of `dask_groupby`
(`dask_groupby/core.py`) against its natural-language specification.

The embedding is a shallow one over Lean lists:

* a one-dimensional numpy array of integers is a `List Int`;
* a grouping array (`by`) is a `List (Option Int)`, where `none` models a
  missing value (NaN): `pandas.factorize` assigns the code `-1` to missing
  values, which `factorize_` later replaces with the reserved sentinel;
* a `numpy_groupies` kernel is a function `List (Nat × Int) → Int` that
  receives the list of (flat position, value) pairs of one group, mirroring
  how `npg.aggregate` sees each group of the flattened input (positions are
  needed so that arg-style kernels are expressible);
* fallible numpy code (`reindex_`, which can raise `ValueError`) is embedded
  in `Except String`.

Arrays here carry integer data (integer dtype); floating-point payloads are
outside the embedding, except for bin edges (claim about `np.digitize`)
where exact rationals stand in for the float edge comparisons.
-/

namespace DaskGroupby

/-! ### List toolkit

Small executable helpers that the embedded code uses.  `nth` is positional
indexing with a default (numpy integer indexing on valid indices), `posOf`
is the index of the first occurrence (`np.argwhere(a == x)[0, 0]`),
`firstSeen` is first-occurrence deduplication (the order in which
`pandas.factorize` enumerates distinct values), and `npUnique` is
`np.unique`: the distinct values in ascending order. -/

/-- Positional indexing with a default value. -/
def nth {α : Type} : List α → Nat → α → α
  | [], _, d => d
  | a :: _, 0, _ => a
  | _ :: l, n + 1, d => nth l n d

/-- Index of the first occurrence of `x` (`l.length` if absent). -/
def posOf {α : Type} [DecidableEq α] : List α → α → Nat
  | [], _ => 0
  | a :: l, x => if a = x then 0 else posOf l x + 1

/-- First-occurrence deduplication: the distinct values of `l` in the order
they first appear.  This is the order in which `pandas.factorize`
enumerates the distinct grouping values. -/
def firstSeen {α : Type} [DecidableEq α] : List α → List α
  | [] => []
  | a :: l => a :: (firstSeen l).filter (fun x => x ≠ a)

/-- `np.unique` on an array without missing values: the distinct values in
ascending order. -/
def npUnique {α : Type} [LinearOrder α] [DecidableEq α] (l : List α) : List α :=
  (firstSeen l).insertionSort (· ≤ ·)

/-- Running prefix sums (`np.cumsum`). -/
def cumsum : List Nat → List Nat
  | [] => []
  | a :: l => a :: (cumsum l).map (fun x => a + x)

/-- Consecutive differences (`np.diff`), over `Int` since numpy differences
may be negative when the input is not monotone. -/
def diffInt (l : List Nat) : List Int :=
  (l.zip l.tail).map (fun p => (p.2 : Int) - (p.1 : Int))

theorem nth_cons_succ {α : Type} (a : α) (l : List α) (n : Nat) (d : α) :
    nth (a :: l) (n + 1) d = nth l n d := rfl

theorem posOf_lt_length {α : Type} [DecidableEq α] {l : List α} {x : α}
    (h : x ∈ l) : posOf l x < l.length := by
  induction l with
  | nil => cases h
  | cons a l ih =>
    by_cases hax : a = x
    · simp [posOf, hax]
    · have hx : x ∈ l := by
        rcases List.mem_cons.mp h with h1 | h1
        · exact absurd h1.symm hax
        · exact h1
      simp only [posOf, if_neg hax, List.length_cons]
      exact Nat.succ_lt_succ (ih hx)

theorem nth_posOf {α : Type} [DecidableEq α] {l : List α} {x : α}
    (h : x ∈ l) (d : α) : nth l (posOf l x) d = x := by
  induction l with
  | nil => cases h
  | cons a l ih =>
    by_cases hax : a = x
    · simp [posOf, hax, nth]
    · have hx : x ∈ l := by
        rcases List.mem_cons.mp h with h1 | h1
        · exact absurd h1.symm hax
        · exact h1
      simp only [posOf, if_neg hax]
      exact ih hx

theorem mem_firstSeen {α : Type} [DecidableEq α] {l : List α} {x : α} :
    x ∈ firstSeen l ↔ x ∈ l := by
  induction l with
  | nil => simp [firstSeen]
  | cons a l ih =>
    simp only [firstSeen, List.mem_cons, List.mem_filter]
    constructor
    · rintro (rfl | ⟨hx, _⟩)
      · exact Or.inl rfl
      · exact Or.inr (ih.mp hx)
    · rintro (rfl | hx)
      · exact Or.inl rfl
      · by_cases hxa : x = a
        · exact Or.inl hxa
        · exact Or.inr ⟨ih.mpr hx, by simpa using hxa⟩

theorem nodup_firstSeen {α : Type} [DecidableEq α] (l : List α) :
    (firstSeen l).Nodup := by
  induction l with
  | nil => simp [firstSeen]
  | cons a l ih =>
    refine List.nodup_cons.mpr ⟨?_, ih.filter _⟩
    intro ha
    have := (List.mem_filter.mp ha).2
    simp at this

theorem mem_npUnique {α : Type} [LinearOrder α] {l : List α} {x : α} :
    x ∈ npUnique l ↔ x ∈ l := by
  unfold npUnique
  rw [List.mem_insertionSort]
  exact mem_firstSeen

theorem nodup_npUnique {α : Type} [LinearOrder α] (l : List α) :
    (npUnique l).Nodup := by
  unfold npUnique
  exact ((List.perm_insertionSort _ _).nodup_iff).mpr (nodup_firstSeen l)

theorem sorted_npUnique {α : Type} [LinearOrder α] (l : List α) :
    (npUnique l).Sorted (· ≤ ·) :=
  List.sorted_insertionSort _ _

/-- Two ascending duplicate-free lists with the same members are equal.  Used
to identify the several ways the code builds `np.unique` of a collection. -/
theorem sorted_nodup_ext {α : Type} [LinearOrder α] {l₁ l₂ : List α}
    (s₁ : l₁.Sorted (· ≤ ·)) (s₂ : l₂.Sorted (· ≤ ·))
    (n₁ : l₁.Nodup) (n₂ : l₂.Nodup)
    (hmem : ∀ x, x ∈ l₁ ↔ x ∈ l₂) : l₁ = l₂ := by
  have hperm : List.Perm l₁ l₂ := by
    classical
    exact (List.perm_ext_iff_of_nodup n₁ n₂).mpr hmem
  exact List.eq_of_perm_of_sorted hperm s₁ s₂

theorem npUnique_eq_of_mem_iff {α : Type} [LinearOrder α] {l₁ l₂ : List α}
    (hmem : ∀ x, x ∈ l₁ ↔ x ∈ l₂) : npUnique l₁ = npUnique l₂ :=
  sorted_nodup_ext (sorted_npUnique l₁) (sorted_npUnique l₂)
    (nodup_npUnique l₁) (nodup_npUnique l₂)
    (fun x => by rw [mem_npUnique, mem_npUnique]; exact hmem x)

/-! ### `reindex_` (core.py lines 249-284)

Re-expresses the trailing group axis of an array from the ordered group set
`from_` to the ordered group set `to`.  Mirrored branch by branch:

1. the trivial short-circuit when `from_` and `to` are already identical
   returns the array unchanged;
2. an array with zero length along the group axis ("all groups were NaN")
   is replaced by `np.full(len(to), fill_value)` — with an integer dtype and
   `fill_value=None` this numpy call raises, which the embedding reports as
   an error;
3. otherwise numpy fancy indexing gathers position `np.argwhere(from_ ==
   label)[0, 0]` for each target label (`-1`, i.e. the last position, for
   absent ones), and positions that were `-1` are overwritten with
   `fill_value`; if some position is `-1` and no fill value was supplied, a
   `ValueError` is raised. -/

/-- Index of `lab` in `from_`, with `-1` when absent, as built by
`reindex_` via `np.argwhere`. -/
def argIndex {α : Type} [DecidableEq α] (from_ : List α) (lab : α) : Int :=
  if lab ∈ from_ then (posOf from_ lab : Int) else -1

/-- Shallow embedding of `reindex_` for a 1-D integer array. -/
def reindex_ {α : Type} [DecidableEq α] (array : List Int) (from_ to_ : List α)
    (fill_value : Option Int) : Except String (List Int) :=
  if from_.length = to_.length ∧ (from_.zip to_).all (fun p => p.1 = p.2) then
    Except.ok array
  else if array.length = 0 then
    match fill_value with
    | none => Except.error "cannot cast None to an integer dtype"
    | some f => Except.ok (List.replicate to_.length f)
  else
    let idx := to_.map (argIndex from_)
    if idx.any (fun i => i = -1) then
      match fill_value with
      | none => Except.error "Filling is required. fill_value cannot be None."
      | some f =>
          Except.ok (idx.map (fun i => if i = -1 then f else nth array i.toNat 0))
    else
      Except.ok (idx.map (fun i => nth array i.toNat 0))

theorem mem_zip_self_eq {α : Type} : ∀ (g : List α) (p : α × α), p ∈ g.zip g → p.1 = p.2 := by
  intro g
  induction g with
  | nil => intro p hp; cases hp
  | cons a l ih =>
    intro p hp
    rcases List.mem_cons.mp hp with h | h
    · rw [h]
    · exact ih p h

/-- C6 -- Reindexing a result onto its own group set hits the
short-circuit branch of `reindex_` and returns the array unchanged, for any
`fill_value` including `None`. -/
theorem reindex_self_noop {α : Type} [DecidableEq α] (array : List Int)
    (g : List α) (fill_value : Option Int) :
    reindex_ array g g fill_value = Except.ok array := by
  unfold reindex_
  rw [if_pos]
  refine ⟨rfl, ?_⟩
  rw [List.all_eq_true]
  intro p hp
  simpa using mem_zip_self_eq g p hp

theorem eq_of_zip_all_eq {α : Type} [DecidableEq α] :
    ∀ (l₁ l₂ : List α), l₁.length = l₂.length →
      ((l₁.zip l₂).all (fun p => p.1 = p.2)) = true → l₁ = l₂ := by
  intro l₁
  induction l₁ with
  | nil =>
    intro l₂ hlen _
    cases l₂ with
    | nil => rfl
    | cons b m => simp at hlen
  | cons a l ih =>
    intro l₂ hlen hall
    cases l₂ with
    | nil => simp at hlen
    | cons b m =>
      simp only [List.zip_cons_cons, List.all_cons, Bool.and_eq_true, decide_eq_true_eq] at hall
      have h1 : l.length = m.length := by simpa using hlen
      rw [hall.1, ih m h1 hall.2]

theorem argIndex_eq_neg_one_iff {α : Type} [DecidableEq α] (from_ : List α) (t : α) :
    argIndex from_ t = -1 ↔ t ∉ from_ := by
  unfold argIndex
  by_cases h : t ∈ from_
  · simp only [if_pos h]
    constructor
    · intro hc
      exact absurd hc (by omega)
    · intro hc; exact absurd h hc
  · simp [if_neg h, h]

/-- C7 -- `reindex_` fails exactly when some target group is absent from the
source group set and no fill value was supplied; when every target group is
present, the call succeeds even with `fill_value = None`.  The hypothesis is
the structural invariant that `from_` labels the trailing (group) axis of
`array`. -/
theorem reindex_error_iff {α : Type} [DecidableEq α] (array : List Int)
    (from_ to_ : List α) (fill_value : Option Int)
    (hlen : from_.length = array.length) :
    (∃ e, reindex_ array from_ to_ fill_value = Except.error e) ↔
      ((∃ t ∈ to_, t ∉ from_) ∧ fill_value = none) := by
  unfold reindex_
  by_cases hshort : from_.length = to_.length ∧
      ((from_.zip to_).all (fun p => p.1 = p.2)) = true
  · rw [if_pos hshort]
    have heq : from_ = to_ := eq_of_zip_all_eq from_ to_ hshort.1 hshort.2
    constructor
    · rintro ⟨e, he⟩; cases he
    · rintro ⟨⟨t, ht, habs⟩, _⟩
      exact absurd (heq ▸ ht) habs
  · rw [if_neg hshort]
    by_cases hempty : array.length = 0
    · rw [if_pos hempty]
      have hfrom : from_ = [] := List.length_eq_zero.mp (by rw [hlen, hempty])
      have hto : to_ ≠ [] := by
        intro h0
        exact hshort (by simp [hfrom, h0])
      obtain ⟨t, ht⟩ := List.exists_mem_of_ne_nil to_ hto
      cases fill_value with
      | none =>
        constructor
        · intro _
          exact ⟨⟨t, ht, by simp [hfrom]⟩, rfl⟩
        · intro _; exact ⟨_, rfl⟩
      | some f =>
        constructor
        · rintro ⟨e, he⟩; cases he
        · rintro ⟨_, hc⟩; cases hc
    · rw [if_neg hempty]
      simp only []
      by_cases hany : (to_.map (argIndex from_)).any (fun i => i = -1)
      · rw [if_pos hany]
        have habs : ∃ t ∈ to_, t ∉ from_ := by
          rw [List.any_eq_true] at hany
          obtain ⟨i, hi, hieq⟩ := hany
          obtain ⟨t, ht, rfl⟩ := List.mem_map.mp hi
          exact ⟨t, ht, (argIndex_eq_neg_one_iff from_ t).mp (by simpa using hieq)⟩
        cases fill_value with
        | none =>
          constructor
          · intro _; exact ⟨habs, rfl⟩
          · intro _; exact ⟨_, rfl⟩
        | some f =>
          constructor
          · rintro ⟨e, he⟩; cases he
          · rintro ⟨_, hc⟩; cases hc
      · rw [if_neg hany]
        constructor
        · rintro ⟨e, he⟩; cases he
        · rintro ⟨⟨t, ht, habs⟩, _⟩
          refine absurd ?_ hany
          rw [List.any_eq_true]
          exact ⟨argIndex from_ t, List.mem_map.mpr ⟨t, ht, rfl⟩,
            by simpa using (argIndex_eq_neg_one_iff from_ t).mpr habs⟩

/-- Witness for C7 at a concrete input: source groups `[1, 2]`, targets
`[1, 3]`, no fill value -- the call fails because `3` is absent. -/
theorem reindex_error_iff_witness :
    (∃ e, reindex_ [(10 : Int), 20] [(1 : Int), 2] [1, 3] none = Except.error e) ↔
      ((∃ t ∈ [(1 : Int), 3], t ∉ [(1 : Int), 2]) ∧ (none : Option Int) = none) :=
  reindex_error_iff [(10 : Int), 20] [(1 : Int), 2] [1, 3] none (by decide)

/-! ### `factorize_` (core.py lines 305-355) and `offset_labels` (287-302)

`factorize_` converts raw grouping values into dense integer codes.  The
embedding covers the three call shapes the claims need:

* `factorize_1d`: one non-binned grouping array whose dimensions are all
  reduced (`offset_group = False`);
* `factorize_bins`: one binned grouping array (`isbin=True`), where
  `np.digitize(v, edges) - 1` computes the half-open interval index and the
  found groups are `np.arange(idx.max() + 1)`;
* `factorize_2d`: a 2-D grouping array with a scalar reduction axis, which
  triggers offset mode (`offset_labels`): each leading-dimension row gets a
  private copy of the code space.

In every case `pandas.factorize` gives missing values the code `-1`, and the
final step replaces `-1` with the reserved sentinel (`ngroups + 1`, or
`size + 1` in offset mode). -/

/-- `pandas.factorize` on a 1-D array: codes (`-1` for missing) paired with
the distinct values in first-seen order. -/
def pdFactorize (by_ : List (Option Int)) : List Int × List Int :=
  let uniques := firstSeen (by_.filterMap id)
  (by_.map (fun b => match b with
    | none => -1
    | some x => (posOf uniques x : Int)), uniques)

/-- The `FactorProps` namedtuple of `factorize_`. -/
structure FactorProps where
  offset_group : Bool
  nan_sentinel : Nat
deriving DecidableEq, Repr

/-- The tuple returned by `factorize_` (`grp_shape` omitted: the claims use
a single grouping array, for which it is `(ngroups,)`). -/
structure FactorizeResult where
  group_idx : List Nat
  found_groups : List Int
  ngroups : Nat
  size : Option Nat
  props : FactorProps
deriving DecidableEq, Repr

/-- `factorize_` on one non-binned grouping array, reducing along all of its
dimensions (no offset mode). -/
def factorize_1d (by_ : List (Option Int)) : FactorizeResult :=
  let codes := (pdFactorize by_).1
  let uniques := (pdFactorize by_).2
  let ngroups := uniques.length
  let sentinel := ngroups + 1
  { group_idx := codes.map (fun c => if c < 0 then sentinel else c.toNat)
    found_groups := uniques
    ngroups := ngroups
    size := none
    props := ⟨false, sentinel⟩ }

/-- `np.digitize(x, edges)` for ascending `edges` with the default
`right=False` convention: the number of edges `≤ x`, so that
`edges[i-1] <= x < edges[i]` gives `i`. -/
def digitize (x : ℚ) (edges : List ℚ) : Nat :=
  (edges.filter (fun e => e ≤ x)).length

/-- `factorize_` on one binned grouping array (`isbin=True`): interval codes
via `np.digitize(...) - 1`, found groups `np.arange(idx.max() + 1)`. -/
def factorize_bins (byq : List ℚ) (edges : List ℚ) : FactorizeResult :=
  let codes : List Int := byq.map (fun x => (digitize x edges : Int) - 1)
  let found : List Int := (List.range ((codes.foldr max (-1)) + 1).toNat).map
    (fun n => (n : Int))
  let ngroups := found.length
  let sentinel := ngroups + 1
  { group_idx := codes.map (fun c => if c < 0 then sentinel else c.toNat)
    found_groups := found
    ngroups := ngroups
    size := none
    props := ⟨false, sentinel⟩ }

/-- Split a flat code list back into rows of the given lengths
(`np.reshape` to the shape of `by`). -/
def splitLens : List Int → List Nat → List (List Int)
  | _, [] => []
  | l, n :: ns => l.take n :: splitLens (l.drop n) ns

/-- `offset_labels`: give each leading-dimension row its own private copy of
the code space via `code + row * ngroups`, preserving `-1` (missing).
Returns the offset codes, `ngroups` and `size = nrows * ngroups`. -/
def offset_labels (labels : List (List Int)) : List (List Int) × Nat × Nat :=
  let ngroups : Nat := ((labels.flatten.foldr max (-1)) + 1).toNat
  (labels.enum.map (fun p => p.2.map
      (fun c => if c = -1 then -1 else c + (p.1 : Int) * ngroups)),
   ngroups, labels.length * ngroups)

/-- `factorize_` on a 2-D grouping array with a scalar reduction axis
(offset mode: leading dimensions are not reduced). -/
def factorize_2d (by2 : List (List (Option Int))) : FactorizeResult :=
  let codes := (pdFactorize by2.flatten).1
  let uniques := (pdFactorize by2.flatten).2
  let codeRows := splitLens codes (by2.map List.length)
  let off := offset_labels codeRows
  let size := off.2.2
  let sentinel := size + 1
  { group_idx := (off.1.flatten).map (fun c => if c < 0 then sentinel else c.toNat)
    found_groups := uniques
    ngroups := off.2.1
    size := some size
    props := ⟨true, sentinel⟩ }

/-- Counterexample to C3 as stated: for the grouping array `[5, 7]` (no
offset mode) the reserved sentinel is `3 = ngroups + 1`, not
`ngroups = 2` as the claim says. -/
theorem factorize_sentinel_claim_false :
    ¬ ((factorize_1d [some 5, some 7]).props.nan_sentinel =
       (factorize_1d [some 5, some 7]).ngroups) := by
  decide

/-- C3 (amended) -- after factorization the reserved missing-value sentinel
equals `ngroups + 1` when not in offset mode, and `size + 1` in offset mode
(the code comment says exactly this; the spec dropped the `+ 1` in the
non-offset case). -/
theorem factorize_sentinel_values :
    (∀ by_ : List (Option Int),
        (factorize_1d by_).props.offset_group = false ∧
        (factorize_1d by_).props.nan_sentinel = (factorize_1d by_).ngroups + 1) ∧
    (∀ by2 : List (List (Option Int)),
        (factorize_2d by2).props.offset_group = true ∧
        (factorize_2d by2).props.nan_sentinel = (factorize_2d by2).size.getD 0 + 1) := by
  exact ⟨fun by_ => ⟨rfl, rfl⟩, fun by2 => ⟨rfl, rfl⟩⟩

/-! ### `chunk_reduce` (core.py lines 407-554)

The per-block groupby reduction for a 1-D grouping array and one kernel.
After local factorization the steps are, mirroring the source:

* `mask = group_idx != nan_sentinel`; the block is `empty` when all labels
  are missing or the block has zero size, and then short-circuits to an
  output filled with the kernel's fill value under a single NaN group
  marker;
* otherwise `npg.aggregate(group_idx, array, size=max(group_idx)+1)` (the
  factorizer returns `size=None` outside offset mode, so `numpy_groupies`
  sizes the output from the largest code) applies the kernel to every
  group's (position, value) pairs, filling groups with no members;
* if any label was missing, the trailing sentinel slot is sliced off
  (`result[..., :-1]`);
* the output groups are sorted ascending and the result columns are
  permuted accordingly (`result[..., sortidx]`). -/

/-- The (flat position, value) pairs of the elements whose code equals `i`,
in input order; `pos` is the flat position of the head of `codes`.  This is
what `npg.aggregate` hands to a kernel for group `i`. -/
def groupPairs (codes : List Nat) (values : List Int) (i : Nat) (pos : Nat) :
    List (Nat × Int) :=
  match codes, values with
  | c :: cs, v :: vs => (if c = i then [(pos, v)] else []) ++ groupPairs cs vs i (pos + 1)
  | _, _ => []

/-- `npg.aggregate` on a 1-D array for one kernel `K`: one output slot per
code in `range size`, holding `fill_value` for memberless groups. -/
def npgAggregate (K : List (Nat × Int) → Int) (fill_value : Int)
    (codes : List Nat) (values : List Int) (size : Nat) : List Int :=
  (List.range size).map (fun i =>
    let ps := groupPairs codes values i 0
    if ps.isEmpty then fill_value else K ps)

/-- One block's intermediate result: the observed groups (`none` is the NaN
group marker of an all-missing block) and one intermediate channel. -/
structure GroupResult where
  groups : List (Option Int)
  inter : List Int
deriving DecidableEq, Repr

/-- The part of `chunk_reduce` after factorization (shared by the labelled
and the binned entry points). -/
def chunk_reduce_post (K : List (Nat × Int) → Int) (fill_value : Int)
    (fr : FactorizeResult) (values : List Int) : GroupResult :=
  let gidx := fr.group_idx
  let sentinel := fr.props.nan_sentinel
  let anyMissing := gidx.any (fun c => c = sentinel)
  let empty := gidx.all (fun c => c = sentinel)
  if empty then ⟨[none], [fill_value]⟩
  else
    let sortedGroups := fr.found_groups.insertionSort (· ≤ ·)
    let npgSize := gidx.foldr max 0 + 1
    let raw := npgAggregate K fill_value gidx values npgSize
    let raw2 := if anyMissing then raw.dropLast else raw
    ⟨sortedGroups.map some,
     sortedGroups.map (fun g => nth raw2 (posOf fr.found_groups g) fill_value)⟩

/-- `chunk_reduce` for a 1-D grouping array and one kernel (`reindex=False`,
`expected_groups=None`: the call shape used on every block of the
`mapreduce` path and in the combine stage). -/
def chunk_reduce (K : List (Nat × Int) → Int) (fill_value : Int)
    (by_ : List (Option Int)) (values : List Int) : GroupResult :=
  chunk_reduce_post K fill_value (factorize_1d by_) values

/-- `chunk_reduce` with `isbin=True`: the grouping values are binned against
`edges` by the factorizer. -/
def chunk_reduce_isbin (K : List (Nat × Int) → Int) (fill_value : Int)
    (byq : List ℚ) (edges : List ℚ) (values : List Int) : GroupResult :=
  chunk_reduce_post K fill_value (factorize_bins byq edges) values

deriving instance DecidableEq for Except

/-- The `numpy_groupies` "sum" kernel. -/
def npgSum (ps : List (Nat × Int)) : Int := (ps.map (fun p => p.2)).sum

/-- The `numpy_groupies` "nanlen" kernel on integer data (no NaNs): the
number of elements of the group.  This is what xarray's "count" runs. -/
def npgNanlen (ps : List (Nat × Int)) : Int := ps.length

/-! ### `groupby_reduce`, pure-numpy path (core.py lines 1152-1206)

For numpy inputs the engine runs `chunk_reduce` once on the whole array and
then `_finalize_results` with `agg.finalize = None`: the sole intermediate
is the answer, and it is reindexed onto `expected_groups`
(`np.unique(by)` when the caller passed none, or `np.arange(len(edges)-1)`
after binning) with the resolved fill value. -/

/-- `groupby_reduce` on numpy inputs, single kernel, no `min_count`, caller
passed no `expected_groups`.  `fill_value` is the already-resolved fill
value (the aggregation catalog, which is not part of the analysed sources,
resolves `None`; it is irrelevant here because the reindex target is
exactly the observed group set). -/
def groupby_reduce_numpy (K : List (Nat × Int) → Int) (fill_value : Int)
    (labels : List Int) (values : List Int) : Except String (List Int × List Int) :=
  let expected := npUnique labels
  let res := chunk_reduce K fill_value (labels.map some) values
  match reindex_ res.inter res.groups (expected.map some) (some fill_value) with
  | Except.ok out => Except.ok (expected, out)
  | Except.error e => Except.error e

/-- `groupby_reduce` on numpy inputs with `isbin=True`: after the chunk
step the engine works with bin indexes, `expected_groups =
np.arange(len(edges) - 1)`. -/
def groupby_reduce_numpy_isbin (K : List (Nat × Int) → Int) (fill_value : Int)
    (byq : List ℚ) (edges : List ℚ) (values : List Int) :
    Except String (List Int × List Int) :=
  let expected : List Int := (List.range (edges.length - 1)).map (fun n => (n : Int))
  let res := chunk_reduce_isbin K fill_value byq edges values
  match reindex_ res.inter res.groups (expected.map some) (some fill_value) with
  | Except.ok out => Except.ok (expected, out)
  | Except.error e => Except.error e

/-- C2 -- the spec's scenario: labels `a a c c c b b c c b b f` (encoded
order-isomorphically as `0 0 2 2 2 1 1 2 2 1 1 3`) over a 12-element axis,
all values `1`, kernel "sum", `min_count=None`: the groups come out as
`[a, b, c, f] = [0, 1, 2, 3]` with sums `a=2, b=4, c=5, f=1`. -/
theorem scenario_sum_of_ones :
    groupby_reduce_numpy npgSum 0 [0, 0, 2, 2, 2, 1, 1, 2, 2, 1, 1, 3]
      (List.replicate 12 1) = Except.ok ([0, 1, 2, 3], [2, 4, 5, 1]) := by
  rfl

/-- Build an exact rational from a reduced fraction without going through
`Rat.div` (which does not reduce inside the kernel): `1.5 = ratLit 3 2`,
`1.9 = ratLit 19 10`. -/
def ratLit (n : Int) (d : Nat) (h1 : d ≠ 0) (h2 : n.natAbs.Coprime d) : ℚ :=
  ⟨n, d, h1, h2⟩

/-- C5 -- the spec's binning scenario: bin edges `[1, 2, 4, 5]`
(`isbin=True`) against values `[1, 1.5, 1.9, 2, 3]`, kernel "count",
`fill_value=0`: the interval counts are `[3, 2, 0]`, and the value `3`
falls in the half-open interval `[2, 4)` (bin index `1`). -/
theorem scenario_bin_count :
    groupby_reduce_numpy_isbin npgNanlen 0
        [1, ratLit 3 2 (by decide) (by decide), ratLit 19 10 (by decide) (by decide), 2, 3]
        [1, 2, 4, 5] [10, 20, 30, 40, 50] =
      Except.ok ([0, 1, 2], [3, 2, 0]) ∧
    (digitize 3 [1, 2, 4, 5] : Int) - 1 = 1 := by
  exact ⟨by decide, by decide⟩

/-! ### C4: sentinel isolation in `chunk_reduce`

Elements whose group label is missing are factorized to the reserved
sentinel, which (a) is never one of the codes the output columns read, and
(b) has its slot sliced off by `result[..., :-1]`.  Formally: the output of
`chunk_reduce` does not depend on the array values at missing-label
positions, for an arbitrary kernel. -/

theorem nth_mem {α : Type} : ∀ (l : List α) (k : Nat) (d : α),
    k < l.length → nth l k d ∈ l := by
  intro l
  induction l with
  | nil => intro k d h; simp at h
  | cons a t ih =>
    intro k d h
    cases k with
    | zero => exact List.mem_cons_self a t
    | succ k =>
      exact List.mem_cons_of_mem a (ih k d (by simpa using h))

theorem nth_map {α β : Type} (f : α → β) : ∀ (l : List α) (k : Nat) (d : β) (d0 : α),
    k < l.length → nth (l.map f) k d = f (nth l k d0) := by
  intro l
  induction l with
  | nil => intro k d d0 h; simp at h
  | cons a t ih =>
    intro k d d0 h
    cases k with
    | zero => rfl
    | succ k => exact ih k d d0 (by simpa using h)

theorem nth_ext {α : Type} (d : α) : ∀ (l₁ l₂ : List α),
    l₁.length = l₂.length → (∀ k, k < l₁.length → nth l₁ k d = nth l₂ k d) →
    l₁ = l₂ := by
  intro l₁
  induction l₁ with
  | nil =>
    intro l₂ hlen _
    cases l₂ with
    | nil => rfl
    | cons b m => simp at hlen
  | cons a t ih =>
    intro l₂ hlen h
    cases l₂ with
    | nil => simp at hlen
    | cons b m =>
      have h0 : a = b := h 0 (by simp)
      have ht : t = m := ih m (by simpa using hlen)
        (fun k hk => h (k + 1) (by simpa using Nat.succ_lt_succ hk))
      rw [h0, ht]

theorem le_foldr_max : ∀ (l : List Nat) (x : Nat), x ∈ l → x ≤ l.foldr max 0 := by
  intro l
  induction l with
  | nil => intro x h; cases h
  | cons a t ih =>
    intro x h
    rcases List.mem_cons.mp h with rfl | h
    · exact Nat.le_max_left _ _
    · exact Nat.le_trans (ih x h) (Nat.le_max_right _ _)

theorem foldr_max_le : ∀ (l : List Nat) (b : Nat), (∀ x ∈ l, x ≤ b) →
    l.foldr max 0 ≤ b := by
  intro l
  induction l with
  | nil => intro b _; exact Nat.zero_le b
  | cons a t ih =>
    intro b h
    exact Nat.max_le.mpr ⟨h a (List.mem_cons_self a t),
      ih b (fun x hx => h x (List.mem_cons_of_mem a hx))⟩

theorem dropLast_map_range (f : Nat → Int) (n : Nat) :
    ((List.range (n + 1)).map f).dropLast = (List.range n).map f := by
  rw [List.range_succ, List.map_append]
  simp

theorem groupPairs_congr (i : Nat) : ∀ (codes : List Nat) (v w : List Int) (pos : Nat),
    v.length = w.length →
    (∀ k, nth codes k (i + 1) = i → nth v k 0 = nth w k 0) →
    groupPairs codes v i pos = groupPairs codes w i pos := by
  intro codes
  induction codes with
  | nil => intro v w pos _ _; rfl
  | cons c cs ih =>
    intro v w pos hlen h
    cases v with
    | nil =>
      cases w with
      | nil => rfl
      | cons b bs => simp at hlen
    | cons a as =>
      cases w with
      | nil => simp at hlen
      | cons b bs =>
        have htail : groupPairs cs as i (pos + 1) = groupPairs cs bs i (pos + 1) :=
          ih as bs (pos + 1) (by simpa using hlen)
            (fun k hk => h (k + 1) (by simpa [nth] using hk))
        by_cases hc : c = i
        · have hab : a = b := by
            have := h 0 (by simpa [nth] using hc)
            simpa [nth] using this
          simp [groupPairs, hc, hab, htail]
        · simp [groupPairs, hc, htail]

theorem nth_of_ge {α : Type} : ∀ (l : List α) (k : Nat) (d : α),
    l.length ≤ k → nth l k d = d := by
  intro l
  induction l with
  | nil => intro k d _; cases k <;> rfl
  | cons a t ih =>
    intro k d h
    cases k with
    | zero => simp at h
    | succ k => exact ih k d (by simpa using h)

/-- The group codes produced by `factorize_1d`: missing labels get the
sentinel, present ones their first-seen rank. -/
theorem group_idx_factorize_1d (by_ : List (Option Int)) :
    (factorize_1d by_).group_idx =
      by_.map (fun b => match b with
        | none => (firstSeen (by_.filterMap id)).length + 1
        | some x => posOf (firstSeen (by_.filterMap id)) x) := by
  simp only [factorize_1d, pdFactorize, List.map_map]
  congr 1
  funext b
  cases b with
  | none => norm_num
  | some x =>
    simp only [Function.comp]
    rw [if_neg (by omega)]
    omega

theorem found_groups_factorize_1d (by_ : List (Option Int)) :
    (factorize_1d by_).found_groups = firstSeen (by_.filterMap id) := rfl

theorem sentinel_factorize_1d (by_ : List (Option Int)) :
    (factorize_1d by_).props.nan_sentinel = (firstSeen (by_.filterMap id)).length + 1 := rfl

/-- C4 -- sentinel isolation: for every kernel `K` and every block, the
output of `chunk_reduce` does not depend on the array values at positions
whose group label is missing (factorized to `-1`, then to the sentinel).
`v` and `w` agree on all non-missing positions and produce identical
results. -/
theorem chunk_reduce_missing_isolated (K : List (Nat × Int) → Int) (fill_value : Int)
    (by_ : List (Option Int)) (v w : List Int)
    (hv : v.length = by_.length) (hw : w.length = by_.length)
    (hagree : ∀ k, k < by_.length → nth by_ k none ≠ none → nth v k 0 = nth w k 0) :
    chunk_reduce K fill_value by_ v = chunk_reduce K fill_value by_ w := by
  classical
  set U := firstSeen (by_.filterMap id) with hUdef
  set S := U.length + 1 with hSdef
  set code : Option Int → Nat := fun b => match b with
    | none => S
    | some x => posOf U x with hcodedef
  have hgidx : (factorize_1d by_).group_idx = by_.map code := group_idx_factorize_1d by_
  have hsent : (factorize_1d by_).props.nan_sentinel = S := rfl
  have hcode_lt : ∀ b ∈ by_, b ≠ none → code b < U.length := by
    intro b hb hbn
    cases b with
    | none => exact absurd rfl hbn
    | some x =>
      have hx : x ∈ U := mem_firstSeen.mpr (List.mem_filterMap.mpr ⟨some x, hb, rfl⟩)
      exact posOf_lt_length hx
  by_cases hmiss : ((by_.map code).any (fun c => decide (c = S))) = true
  · -- some label is missing: the sentinel slot is the largest code and is
    -- sliced off; all surviving slots read only non-missing positions
    have hS_mem : S ∈ by_.map code := by
      rcases List.any_eq_true.mp hmiss with ⟨c, hc, hce⟩
      have : c = S := of_decide_eq_true hce
      exact this ▸ hc
    have hle : ∀ x ∈ by_.map code, x ≤ S := by
      intro x hx
      rcases List.mem_map.mp hx with ⟨b, hb, rfl⟩
      by_cases hbn : b = none
      · subst hbn; exact Nat.le_refl S
      · exact Nat.le_of_lt (Nat.lt_trans (hcode_lt b hb hbn) (by omega))
    have hmax : (by_.map code).foldr max 0 = S :=
      Nat.le_antisymm (foldr_max_le _ _ hle) (le_foldr_max _ _ hS_mem)
    have hpairs : ∀ i, i < S →
        groupPairs (by_.map code) v i 0 = groupPairs (by_.map code) w i 0 := by
      intro i hi
      refine groupPairs_congr i (by_.map code) v w 0 (hv.trans hw.symm) ?_
      intro k hk
      have hklen : k < (by_.map code).length := by
        by_contra hout
        push_neg at hout
        rw [nth_of_ge _ _ _ hout] at hk
        omega
      have hklen2 : k < by_.length := by simpa using hklen
      rw [nth_map code by_ k (i + 1) none hklen2] at hk
      have hbn : nth by_ k none ≠ none := by
        intro hnone
        rw [hnone] at hk
        simp only [code] at hk
        omega
      exact hagree k hklen2 hbn
    have hdrop : (npgAggregate K fill_value (by_.map code) v
          ((by_.map code).foldr max 0 + 1)).dropLast =
        (npgAggregate K fill_value (by_.map code) w
          ((by_.map code).foldr max 0 + 1)).dropLast := by
      rw [hmax]
      unfold npgAggregate
      rw [dropLast_map_range, dropLast_map_range]
      refine List.map_congr_left ?_
      intro i hi
      have hiS : i < S := List.mem_range.mp hi
      rw [hpairs i hiS]
    show chunk_reduce_post K fill_value (factorize_1d by_) v =
      chunk_reduce_post K fill_value (factorize_1d by_) w
    unfold chunk_reduce_post
    rw [hgidx, hsent]
    by_cases hempty : ((by_.map code).all (fun c => decide (c = S))) = true
    · simp only [hempty, if_pos]
    · simp only [hempty, Bool.false_eq_true, if_false, if_neg, hmiss, if_pos, if_true]
      rw [hdrop]
  · -- no label is missing: v and w agree everywhere, hence are equal
    have hall : ∀ k, k < by_.length → nth by_ k none ≠ none := by
      intro k hk hnone
      refine hmiss ?_
      rw [List.any_eq_true]
      refine ⟨S, ?_, by simp⟩
      have : nth by_ k none ∈ by_ := nth_mem by_ k none hk
      rw [hnone] at this
      exact List.mem_map.mpr ⟨none, this, rfl⟩
    have hvw : v = w :=
      nth_ext 0 v w (hv.trans hw.symm)
        (fun k hk => hagree k (by omega) (hall k (by omega)))
    rw [hvw]

/-- Witness for C4: block labels `[1, NaN, 1]`; changing the value under
the missing label (99 vs 3) does not change the sum result. -/
theorem chunk_reduce_missing_isolated_witness :
    chunk_reduce npgSum 0 [some 1, none, some 1] [10, 99, 5] =
      chunk_reduce npgSum 0 [some 1, none, some 1] [10, 3, 5] :=
  chunk_reduce_missing_isolated npgSum 0 [some 1, none, some 1] [10, 99, 5] [10, 3, 5]
    (by decide) (by decide) (by decide)

/-! ### `find_group_cohorts` (core.py lines 102-152), `merge=False`

Each element of `labels` is assigned the index of the block it falls in
(`np.repeat(np.arange(len(chunks)), chunks)`); each distinct label gets the
set of block indices it touches; labels are then grouped by that
signature (`toolz.groupby` over the keys `np.unique(labels)`). -/

/-- `np.repeat(np.arange(len(chunks)), chunks)`: block index of every flat
position. -/
def which_chunk (chunks : List Nat) : List Nat :=
  (((List.range chunks.length).zip chunks).map (fun p => List.replicate p.2 p.1)).flatten

/-- The sorted distinct block indices touched by `lab`
(`tuple(np.unique(which_chunk[labels == lab]))`). -/
def label_chunks (labels : List Int) (chunks : List Nat) (lab : Int) : List Nat :=
  npUnique (((labels.zip (which_chunk chunks)).filter (fun p => p.1 = lab)).map
    (fun p => p.2))

/-- `find_group_cohorts(labels, chunks, merge=False)`: group the distinct
labels by their chunk-occurrence signature, in first-seen signature order
(dict insertion order of `toolz.groupby` over keys in `np.unique` order). -/
def find_group_cohorts_nomerge (labels : List Int) (chunks : List Nat) :
    List (List Int) :=
  let uls := npUnique labels
  (firstSeen (uls.map (label_chunks labels chunks))).map
    (fun s => uls.filter (fun l => label_chunks labels chunks l = s))

/-- C8 -- cohort partition totality: with `merge=False` the cohorts are
pairwise disjoint and their union is exactly the set of distinct group
labels present in the input.  The hypothesis is the alignment
`len(labels) == sum(chunks)` required by the boolean mask in the source. -/
theorem find_group_cohorts_partition (labels : List Int) (chunks : List Nat)
    (halign : labels.length = chunks.sum) :
    (find_group_cohorts_nomerge labels chunks).Pairwise
        (fun c d => ∀ x, x ∈ c → x ∉ d) ∧
    (∀ x : Int, (∃ c ∈ find_group_cohorts_nomerge labels chunks, x ∈ c) ↔ x ∈ labels) := by
  classical
  constructor
  · unfold find_group_cohorts_nomerge
    refine List.pairwise_map.mpr ?_
    have hnd : (firstSeen ((npUnique labels).map (label_chunks labels chunks))).Nodup :=
      nodup_firstSeen _
    refine hnd.imp ?_
    intro s t hst x hxs hxt
    have h1 := List.mem_filter.mp hxs
    have h2 := List.mem_filter.mp hxt
    have e1 : label_chunks labels chunks x = s := by simpa using h1.2
    have e2 : label_chunks labels chunks x = t := by simpa using h2.2
    exact hst (e1 ▸ e2)
  · intro x
    constructor
    · rintro ⟨c, hc, hxc⟩
      unfold find_group_cohorts_nomerge at hc
      rcases List.mem_map.mp hc with ⟨s, _, rfl⟩
      have := (List.mem_filter.mp hxc).1
      exact mem_npUnique.mp this
    · intro hx
      have hxu : x ∈ npUnique labels := mem_npUnique.mpr hx
      refine ⟨(npUnique labels).filter
        (fun l => label_chunks labels chunks l = label_chunks labels chunks x), ?_, ?_⟩
      · unfold find_group_cohorts_nomerge
        refine List.mem_map.mpr ⟨label_chunks labels chunks x, ?_, rfl⟩
        exact mem_firstSeen.mpr (List.mem_map.mpr ⟨x, hxu, rfl⟩)
      · exact List.mem_filter.mpr ⟨hxu, by simp⟩

/-- Witness for C8 at labels `[1, 2, 1, 3]` with chunks `(2, 2)`. -/
theorem find_group_cohorts_partition_witness :
    (∃ c ∈ find_group_cohorts_nomerge [1, 2, 1, 3] [2, 2], (1 : Int) ∈ c) ↔
      (1 : Int) ∈ [(1 : Int), 2, 1, 3] :=
  (find_group_cohorts_partition [1, 2, 1, 3] [2, 2] (by decide)).2 1

/-! ### Rechunk planners

`_get_optimal_chunks_for_groups` (core.py lines 69-99): snap existing chunk
boundaries to the nearer group boundary of the group straddling them.
`rechunk_for_cohorts` (lines 155-228): walk the labels, starting a new
block at forced labels, old chunk boundaries, or when the running block
reaches the nominal chunk size with no forced label close ahead.  Both end
by differencing a division list, asserting the sizes sum to the axis
length. -/

/-- `npg.aggregate(labels, np.arange(len(labels)), func="last")[lab]`: the
last flat index carrying `lab` (0, the npg fill default, when absent). -/
def lastIndexAgg (labels : List Nat) (lab : Nat) : Nat :=
  ((((labels.enum).filter (fun p => p.2 = lab)).map (fun p => p.1)).getLast?).getD 0

/-- Same with `func="first"`. -/
def firstIndexAgg (labels : List Nat) (lab : Nat) : Nat :=
  ((((labels.enum).filter (fun p => p.2 = lab)).map (fun p => p.1)).head?).getD 0

/-- The last element of a list, with a default (`l[-1]`). -/
def lastD (l : List Nat) (d : Nat) : Nat :=
  match l with
  | [] => d
  | [a] => a
  | _ :: t => lastD t d

/-- One iteration of the boundary-selection loop of
`_get_optimal_chunks_for_groups` over `zip(chunkidx, firstidx, lastidx)`:
skip when `c == 0` or the last emitted boundary passed `l`; otherwise emit
`f` when it is strictly closer and ahead, else `l + 1`. -/
def optimalStep (acc : List Nat) (t : Nat × Nat × Nat) : List Nat :=
  if t.1 = 0 ∨ t.2.2 < lastD acc 0 then acc
  else if ((t.1 : Int) - (t.2.1 : Int)).natAbs < ((t.1 : Int) - (t.2.2 : Int)).natAbs ∧
      lastD acc 0 < t.2.1 then
    acc ++ [t.2.1]
  else
    acc ++ [t.2.2 + 1]

/-- The boundary-list construction of `_get_optimal_chunks_for_groups`:
fold the loop over `zip(chunkidx, firstidx, lastidx)` starting from `[0]`,
append the final boundary `chunkidx[-1] + 1` when the loop did not end on
it, and difference. -/
def optimalNewChunks (chunkidx firstidx lastidx : List Nat) : List Int :=
  let newchunkidx := (chunkidx.zip (firstidx.zip lastidx)).foldl optimalStep [0]
  let fixed := if lastD newchunkidx 0 ≠ lastD chunkidx 0 + 1 then
    newchunkidx ++ [lastD chunkidx 0 + 1] else newchunkidx
  diffInt fixed

/-- `_get_optimal_chunks_for_groups(chunks, labels)`; `labels` are already
factorized codes (`rechunk_for_blockwise` factorizes first).  Returns the
new chunk sizes (`np.diff` of the boundary list, over `Int`). -/
def optimalChunksForGroups (chunks : List Nat) (labels : List Nat) : List Int :=
  let chunkidx := (cumsum chunks).map (fun x => x - 1)
  let bounds := npUnique (chunkidx.map (fun i => nth labels i 0))
  let lastidx := bounds.map (lastIndexAgg labels)
  if chunkidx.length = lastidx.length ∧ chunkidx = lastidx then
    chunks.map (fun (c : Nat) => (c : Int))
  else
    optimalNewChunks chunkidx (bounds.map (firstIndexAgg labels)) lastidx

/-- One iteration of the division loop of `rechunk_for_cohorts`: state is
`(divisions, counter)`, input is `(idx, label)`.  `np.nonzero(isbreak[idx:])`
lists the positions of upcoming forced labels; `.any()` on an index array
means "some nonzero entry". -/
def cohortsStep (chunksize : Nat) (force : List Int) (oldbreaks : List Nat)
    (isbreak : List Bool) (st : List Nat × Nat) (p : Nat × Int) : List Nat × Nat :=
  if p.2 ∈ force then (st.1 ++ [p.1], 1)
  else
    let posns := (((isbreak.drop p.1).enum).filter (fun q => q.2 = true)).map
      (fun q => q.1)
    let next_break_is_close := if posns.any (fun j => j ≠ 0) then
      (posns.head?).getD 0 ≤ chunksize / 2 else false
    if p.1 ∈ oldbreaks ∨ (chunksize ≤ st.2 ∧ ¬ next_break_is_close) then
      (st.1 ++ [p.1], 1)
    else
      (st.1, st.2 + 1)

/-- The chunk-size computation of `rechunk_for_cohorts` (the array itself
only gets rechunked to the returned sizes afterwards; `chunksize` is taken
as given, the `None` default merely computes a median first).  The two
`ValueError` checks precede the division loop. -/
def rechunkForCohortsChunks (labels : List Int) (force : List Int)
    (chunksize : Nat) (oldchunks : List Nat) : Except String (List Int) :=
  if labels.length ≠ oldchunks.sum then
    Except.error "labels must be equal to array.shape[axis]."
  else
    let oldbreaks := 0 :: cumsum oldchunks
    let isbreak := labels.map (fun l => decide (l ∈ force))
    if ¬ (isbreak.any id) then
      Except.error "One or more labels in force_new_chunk_at not present in labels."
    else
      let st := (labels.enum).foldl (cohortsStep chunksize force oldbreaks isbreak) ([], 1)
      Except.ok (diffInt (st.1 ++ [labels.length]))


theorem sum_map_intCast : ∀ l : List Nat, (l.map (fun (c : Nat) => (c : Int))).sum = (l.sum : Int) := by
  intro l
  induction l with
  | nil => rfl
  | cons a t ih =>
    rw [List.map_cons, List.sum_cons, ih, List.sum_cons]
    push_cast
    ring

theorem lastD_singleton (a d : Nat) : lastD [a] d = a := rfl

theorem lastD_cons_of_ne_nil (a d : Nat) : ∀ (l : List Nat), l ≠ [] →
    lastD (a :: l) d = lastD l d := by
  intro l h
  cases l with
  | nil => exact absurd rfl h
  | cons b t => rfl

theorem lastD_concat (x d : Nat) : ∀ (l : List Nat), lastD (l ++ [x]) d = x := by
  intro l
  induction l with
  | nil => rfl
  | cons a t ih =>
    rw [List.cons_append, lastD_cons_of_ne_nil a d (t ++ [x]) (by simp)]
    exact ih

theorem diffInt_sum_cons : ∀ (t : List Nat) (a : Nat),
    (diffInt (a :: t)).sum = (lastD (a :: t) 0 : Int) - (a : Int) := by
  intro t
  induction t with
  | nil => intro a; simp [diffInt, lastD]
  | cons b t2 ih =>
    intro a
    have hstep : diffInt (a :: b :: t2) = ((b : Int) - (a : Int)) :: diffInt (b :: t2) := rfl
    rw [hstep, List.sum_cons, ih b]
    rw [lastD_cons_of_ne_nil a 0 (b :: t2) (by simp)]
    ring

theorem lastD_map_nonempty (f : Nat → Nat) (d d0 : Nat) : ∀ (l : List Nat), l ≠ [] →
    lastD (l.map f) d = f (lastD l d0) := by
  intro l
  induction l generalizing d d0 with
  | nil => intro h; exact absurd rfl h
  | cons a t ih =>
    intro _
    cases t with
    | nil => rfl
    | cons b t2 =>
      rw [List.map_cons, lastD_cons_of_ne_nil (f a) d _ (by simp),
        lastD_cons_of_ne_nil a d0 _ (by simp)]
      exact ih d d0 (by simp)

theorem cumsum_ne_nil : ∀ (l : List Nat), l ≠ [] → cumsum l ≠ [] := by
  intro l h
  cases l with
  | nil => exact absurd rfl h
  | cons a t => simp [cumsum]

theorem cumsum_lastD : ∀ (l : List Nat), lastD (cumsum l) 0 = l.sum := by
  intro l
  induction l with
  | nil => rfl
  | cons a t ih =>
    cases t with
    | nil => simp [cumsum, lastD]
    | cons b t2 =>
      have hne : cumsum (b :: t2) ≠ [] := cumsum_ne_nil _ (by simp)
      have hmapne : ((cumsum (b :: t2)).map (fun x => a + x)) ≠ [] := by
        intro h0
        exact hne (List.map_eq_nil.mp h0)
      calc lastD (cumsum (a :: b :: t2)) 0
          = lastD ((cumsum (b :: t2)).map (fun x => a + x)) 0 := by
            rw [show cumsum (a :: b :: t2) =
              a :: (cumsum (b :: t2)).map (fun x => a + x) from rfl,
              lastD_cons_of_ne_nil a 0 _ hmapne]
        _ = a + lastD (cumsum (b :: t2)) 0 := lastD_map_nonempty _ 0 0 _ hne
        _ = a + (b :: t2).sum := by rw [ih]
        _ = (a :: b :: t2).sum := by simp

theorem foldl_list_prefix {σ : Type} (step : List Nat → σ → List Nat)
    (hstep : ∀ acc p, ∃ e, step acc p = acc ++ e) :
    ∀ (ps : List σ) (acc : List Nat), ∃ ext, ps.foldl step acc = acc ++ ext := by
  intro ps
  induction ps with
  | nil => intro acc; exact ⟨[], by simp⟩
  | cons p ps2 ih =>
    intro acc
    obtain ⟨e0, he0⟩ := hstep acc p
    obtain ⟨ext, hext⟩ := ih (acc ++ e0)
    exact ⟨e0 ++ ext, by rw [List.foldl_cons, he0, hext, List.append_assoc]⟩

theorem foldl_pair_prefix {σ : Type} (step : (List Nat × Nat) → σ → (List Nat × Nat))
    (hstep : ∀ st p, ∃ e c, step st p = (st.1 ++ e, c)) :
    ∀ (ps : List σ) (st : List Nat × Nat), ∃ ext, (ps.foldl step st).1 = st.1 ++ ext := by
  intro ps
  induction ps with
  | nil => intro st; exact ⟨[], by simp⟩
  | cons p ps2 ih =>
    intro st
    obtain ⟨e0, c0, he0⟩ := hstep st p
    obtain ⟨ext, hext⟩ := ih (step st p)
    refine ⟨e0 ++ ext, ?_⟩
    rw [List.foldl_cons, hext, he0]
    simp [List.append_assoc]

theorem optimalStep_snoc (acc : List Nat) (t : Nat × Nat × Nat) :
    ∃ e, optimalStep acc t = acc ++ e := by
  unfold optimalStep
  split
  · exact ⟨[], by simp⟩
  · split
    · exact ⟨[t.2.1], rfl⟩
    · exact ⟨[t.2.2 + 1], rfl⟩

theorem cohortsStep_snoc (chunksize : Nat) (force : List Int) (oldbreaks : List Nat)
    (isbreak : List Bool) (st : List Nat × Nat) (p : Nat × Int) :
    ∃ e c, cohortsStep chunksize force oldbreaks isbreak st p = (st.1 ++ e, c) := by
  unfold cohortsStep
  split
  · exact ⟨[p.1], 1, rfl⟩
  · dsimp only
    split
    · split
      · exact ⟨[p.1], 1, rfl⟩
      · exact ⟨[], st.2 + 1, by simp⟩
    · split
      · exact ⟨[p.1], 1, rfl⟩
      · exact ⟨[], st.2 + 1, by simp⟩

theorem optimalNewChunks_sum (chunkidx firstidx lastidx : List Nat) :
    (optimalNewChunks chunkidx firstidx lastidx).sum = ((lastD chunkidx 0 + 1 : Nat) : Int) := by
  unfold optimalNewChunks
  dsimp only
  obtain ⟨ext, hext⟩ := foldl_list_prefix optimalStep optimalStep_snoc
    (chunkidx.zip (firstidx.zip lastidx)) [0]
  rw [hext]
  rw [show ([0] ++ ext : List Nat) = 0 :: ext from rfl]
  split
  · rw [show ((0 : Nat) :: ext) ++ [lastD chunkidx 0 + 1] =
        0 :: (ext ++ [lastD chunkidx 0 + 1]) from rfl, diffInt_sum_cons]
    rw [show lastD ((0 : Nat) :: (ext ++ [lastD chunkidx 0 + 1])) 0 = lastD chunkidx 0 + 1 from by
      rw [show (0 : Nat) :: (ext ++ [lastD chunkidx 0 + 1]) =
        ((0 : Nat) :: ext) ++ [lastD chunkidx 0 + 1] from rfl]
      exact lastD_concat _ 0 _]
    simp
  · rename_i h
    push_neg at h
    rw [diffInt_sum_cons, h]
    simp

theorem cohortsStep_first (chunksize : Nat) (force : List Int) (oldchunks : List Nat)
    (isbreak : List Bool) (a : Int) :
    cohortsStep chunksize force (0 :: cumsum oldchunks) isbreak ([], 1) (0, a) = ([0], 1) := by
  unfold cohortsStep
  by_cases hf : a ∈ force
  · rw [if_pos hf]
    rfl
  · rw [if_neg hf]
    dsimp only
    rw [if_pos (Or.inl (List.mem_cons_self 0 _))]
    rfl

/-- C9 -- rechunk size conservation: the group-boundary-snapping planner
(`_get_optimal_chunks_for_groups`, used by `rechunk_for_blockwise`) returns
sizes summing to `sum(chunks)` for nonempty positive chunkings, and the
boundary-forcing planner (`rechunk_for_cohorts`) returns sizes summing to
`len(labels)` whenever it returns at all. -/
theorem rechunk_planners_conserve_size :
    (∀ (chunks labels : List Nat), chunks ≠ [] → (∀ c ∈ chunks, 0 < c) →
      (optimalChunksForGroups chunks labels).sum = (chunks.sum : Int)) ∧
    (∀ (labels force : List Int) (chunksize : Nat) (oldchunks : List Nat)
        (out : List Int),
      rechunkForCohortsChunks labels force chunksize oldchunks = Except.ok out →
      out.sum = (labels.length : Int)) := by
  constructor
  · intro chunks labels hne hpos
    have hsumpos : 0 < chunks.sum := by
      cases chunks with
      | nil => exact absurd rfl hne
      | cons a t =>
        have := hpos a (List.mem_cons_self a t)
        simp only [List.sum_cons]
        omega
    unfold optimalChunksForGroups
    dsimp only
    split
    · exact sum_map_intCast chunks
    · rw [optimalNewChunks_sum]
      have hci : lastD ((cumsum chunks).map (fun x => x - 1)) 0 = chunks.sum - 1 := by
        rw [lastD_map_nonempty (fun x => x - 1) 0 0 _ (cumsum_ne_nil chunks hne),
          cumsum_lastD]
      rw [hci]
      omega
  · intro labels force chunksize oldchunks out hok
    unfold rechunkForCohortsChunks at hok
    by_cases hlen : labels.length ≠ oldchunks.sum
    · rw [if_pos hlen] at hok
      cases hok
    · rw [if_neg hlen] at hok
      dsimp only at hok
      by_cases hany : ((labels.map (fun l => decide (l ∈ force))).any id) = true
      · rw [if_neg (by simpa using hany)] at hok
        cases labels with
        | nil => simp at hany
        | cons a rest =>
          have henum : (a :: rest).enum = (0, a) :: rest.enumFrom 1 := rfl
          rw [henum, List.foldl_cons, cohortsStep_first] at hok
          obtain ⟨ext, hext⟩ := foldl_pair_prefix _
            (cohortsStep_snoc chunksize force (0 :: cumsum oldchunks)
              ((a :: rest).map (fun l => decide (l ∈ force))))
            (rest.enumFrom 1) ([0], 1)
          rw [hext] at hok
          have hout : out = diffInt ((([0] : List Nat) ++ ext) ++ [(a :: rest).length]) := by
            injection hok with h
            exact h.symm
          rw [hout,
            show (([0] : List Nat) ++ ext) ++ [(a :: rest).length] =
              0 :: (ext ++ [(a :: rest).length]) from rfl,
            diffInt_sum_cons,
            show lastD ((0 : Nat) :: (ext ++ [(a :: rest).length])) 0 = (a :: rest).length from by
              rw [show (0 : Nat) :: (ext ++ [(a :: rest).length]) =
                ((0 : Nat) :: ext) ++ [(a :: rest).length] from rfl]
              exact lastD_concat _ 0 _]
          simp
      · rw [if_pos (by simpa using hany)] at hok
        cases hok

/-- Witness for C9: the spec's resampling scenario `(1,)*10` with labels
`[1,1,1,2,2,3,3,5,5,5]` (codes `[0,0,0,1,1,2,2,3,3,3]`) for the snapping
planner, and a small forced-boundary call for the cohorts planner. -/
theorem rechunk_planners_conserve_size_witness :
    (optimalChunksForGroups [1, 1, 1, 1, 1, 1, 1, 1, 1, 1]
      [0, 0, 0, 1, 1, 2, 2, 3, 3, 3]).sum =
      (([1, 1, 1, 1, 1, 1, 1, 1, 1, 1] : List Nat).sum : Int) ∧
    ([2, 2] : List Int).sum = (([1, 2, 1, 2] : List Int).length : Int) :=
  ⟨rechunk_planners_conserve_size.1 [1, 1, 1, 1, 1, 1, 1, 1, 1, 1]
      [0, 0, 0, 1, 1, 2, 2, 3, 3, 3] (by decide) (by decide),
   rechunk_planners_conserve_size.2 [1, 2, 1, 2] [1] 2 [2, 2] [2, 2] (by decide)⟩

/-- C10 -- when none of the `force_new_chunk_at` labels occurs in `labels`,
`rechunk_for_cohorts` raises `ValueError` at the `np.any(isbreak)` check,
before the division loop runs; no chunk sizes are produced and the array is
not rechunked. -/
theorem rechunk_for_cohorts_force_absent_error (labels force : List Int)
    (chunksize : Nat) (oldchunks : List Nat)
    (hlen : labels.length = oldchunks.sum)
    (habsent : ∀ f ∈ force, f ∉ labels) :
    rechunkForCohortsChunks labels force chunksize oldchunks =
      Except.error "One or more labels in force_new_chunk_at not present in labels." := by
  unfold rechunkForCohortsChunks
  rw [if_neg (not_ne_iff.mpr hlen)]
  dsimp only
  have hfalse : ((labels.map (fun l => decide (l ∈ force))).any id) = false := by
    by_contra hconn
    have htrue : ((labels.map (fun l => decide (l ∈ force))).any id) = true := by
      cases h : ((labels.map (fun l => decide (l ∈ force))).any id) with
      | true => rfl
      | false => exact absurd h hconn
    obtain ⟨b, hb, hid⟩ := List.any_eq_true.mp htrue
    obtain ⟨l, hl, rfl⟩ := List.mem_map.mp hb
    have hlf : l ∈ force := of_decide_eq_true (by simpa using hid)
    exact habsent l hlf hl
  rw [if_pos (by simp [hfalse])]

/-- Witness for C10: labels `[5, 6]`, forced label `7` absent. -/
theorem rechunk_for_cohorts_force_absent_error_witness :
    rechunkForCohortsChunks [5, 6] [7] 1 [1, 1] =
      Except.error "One or more labels in force_new_chunk_at not present in labels." :=
  rechunk_for_cohorts_force_absent_error [5, 6] [7] 1 [1, 1] (by decide) (by decide)

/-! ### C1: chunk invariance of the `mapreduce` strategy

`groupby_agg` with `method="mapreduce"` runs `chunk_reduce` on every block
and merges the per-block results through a tree of `_npg_combine` calls,
finishing with `_npg_aggregate = _npg_combine + _finalize_results` at the
root.  We embed the combine step (core.py lines 643-751, reduce-type
aggregations, one intermediate channel) and prove: for every partition of
the array into (nonempty) blocks and every shape of combine tree over
them, the combined intermediate equals the one-block `chunk_reduce` of the
whole array — for every kernel whose chunk and combine stages fold an
operation `op` with identity `e` equal to the intermediate fill value
(sum, prod, count/nanlen, and the channels of mean/var are of this form).
Consequently `_finalize_results` returns the same answer for every
`fill_value`/`min_count`/`expected_groups` combination. -/

/-- The (position, value) pairs carrying group label `g`, read directly off
the raw labels; the specification-side description of one group's data. -/
def labelPairs (labels : List Int) (values : List Int) (g : Int) (pos : Nat) :
    List (Nat × Int) :=
  match labels, values with
  | a :: ls, w :: vs => (if a = g then [(pos, w)] else []) ++ labelPairs ls vs g (pos + 1)
  | _, _ => []

/-- The intended per-block summary: groups are `np.unique(labels)`, and
each group's column is the kernel applied to that group's pairs. -/
def summary (K : List (Nat × Int) → Int) (labels values : List Int) : GroupResult :=
  ⟨(npUnique labels).map some, (npUnique labels).map (fun g => K (labelPairs labels values g 0))⟩

theorem filterMap_id_map_some : ∀ l : List Int, (l.map some).filterMap id = l := by
  intro l
  induction l with
  | nil => rfl
  | cons a t ih => simp [ih]

theorem firstSeen_ne_nil {α : Type} [DecidableEq α] : ∀ (l : List α), l ≠ [] →
    firstSeen l ≠ [] := by
  intro l h
  cases l with
  | nil => exact absurd rfl h
  | cons a t => simp [firstSeen]

theorem posOf_nth_nodup {α : Type} [DecidableEq α] : ∀ (U : List α) (k : Nat) (d : α),
    U.Nodup → k < U.length → posOf U (nth U k d) = k := by
  intro U
  induction U with
  | nil => intro k d _ hk; simp at hk
  | cons a t ih =>
    intro k d hnd hk
    cases k with
    | zero => simp [nth, posOf]
    | succ k =>
      have hk2 : k < t.length := by simpa using hk
      have hmem : nth t k d ∈ t := nth_mem t k d hk2
      have hne : ¬ (a = nth t k d) := by
        intro heq
        exact (List.nodup_cons.mp hnd).1 (heq ▸ hmem)
      simp only [nth_cons_succ, posOf, if_neg hne]
      rw [ih k d (List.nodup_cons.mp hnd).2 hk2]

theorem nth_map_range (f : Nat → Int) : ∀ (n i : Nat) (d : Int), i < n →
    nth ((List.range n).map f) i d = f i := by
  intro n
  induction n generalizing f with
  | zero => intro i d h; simp at h
  | succ n ih =>
    intro i d h
    rw [List.range_succ_eq_map, List.map_cons, List.map_map]
    cases i with
    | zero => rfl
    | succ i =>
      rw [nth_cons_succ]
      have := ih (fun k => f (Nat.succ k)) i d (by omega)
      rw [show (List.map (f ∘ Nat.succ) (List.range n)) =
        (List.range n).map (fun k => f (Nat.succ k)) from rfl]
      exact this

theorem labelPairs_ne_nil (g : Int) : ∀ (l v : List Int) (pos : Nat),
    g ∈ l → v.length = l.length → labelPairs l v g pos ≠ [] := by
  intro l
  induction l with
  | nil => intro v pos hg _; cases hg
  | cons a ls ih =>
    intro v pos hg hlen
    cases v with
    | nil => simp at hlen
    | cons w vs =>
      by_cases hag : a = g
      · simp [labelPairs, hag]
      · have hg2 : g ∈ ls := by
          rcases List.mem_cons.mp hg with h | h
          · exact absurd h.symm hag
          · exact h
        simp only [labelPairs, if_neg hag, List.nil_append]
        exact ih vs (pos + 1) hg2 (by simpa using hlen)

theorem groupPairs_map_eq_labelPairs (U : List Int) (g : Int) :
    ∀ (l v : List Int) (pos : Nat),
    (∀ x ∈ l, (posOf U x = posOf U g ↔ x = g)) →
    groupPairs (l.map (fun x => posOf U x)) v (posOf U g) pos = labelPairs l v g pos := by
  intro l
  induction l with
  | nil => intro v pos _; rfl
  | cons a ls ih =>
    intro v pos hinj
    cases v with
    | nil => rfl
    | cons w vs =>
      have hiff := hinj a (List.mem_cons_self _ _)
      have htail := ih vs (pos + 1) (fun x hx => hinj x (List.mem_cons_of_mem _ hx))
      by_cases hag : a = g
      · have hpos : posOf U a = posOf U g := by rw [hag]
        simp [groupPairs, labelPairs, hpos, hag, htail]
      · have hpos : ¬ (posOf U a = posOf U g) := fun h => hag (hiff.mp h)
        simp [groupPairs, labelPairs, hpos, hag, htail]

/-- On a nonempty block with no missing labels, `chunk_reduce` computes the
per-group summary: sorted distinct groups, kernel applied to each group's
(position, value) pairs. -/
theorem chunk_reduce_no_missing (K : List (Nat × Int) → Int) (fv : Int)
    (l v : List Int) (hl : l ≠ []) (hlen : v.length = l.length) :
    chunk_reduce K fv (l.map some) v = summary K l v := by
  classical
  set U := firstSeen l with hUdef
  have hfound : (factorize_1d (l.map some)).found_groups = U := by
    rw [found_groups_factorize_1d, filterMap_id_map_some]
  have hgidx : (factorize_1d (l.map some)).group_idx = l.map (fun x => posOf U x) := by
    rw [group_idx_factorize_1d, filterMap_id_map_some, List.map_map]
    congr 1
  have hsent : (factorize_1d (l.map some)).props.nan_sentinel = U.length + 1 := by
    rw [sentinel_factorize_1d, filterMap_id_map_some]
  have hUne : U ≠ [] := firstSeen_ne_nil l hl
  have hUnodup : U.Nodup := nodup_firstSeen l
  have hmemUl : ∀ x : Int, x ∈ U ↔ x ∈ l := fun x => mem_firstSeen
  have hcode_lt : ∀ x ∈ l, posOf U x < U.length :=
    fun x hx => posOf_lt_length ((hmemUl x).mpr hx)
  have hUlen : 0 < U.length := by
    cases hU : U with
    | nil => exact absurd hU hUne
    | cons a t => simp
  have hanyM : ((l.map (fun x => posOf U x)).any
      (fun c => decide (c = U.length + 1))) = false := by
    by_contra hcon
    have htrue : ((l.map (fun x => posOf U x)).any
        (fun c => decide (c = U.length + 1))) = true := by
      cases h : ((l.map (fun x => posOf U x)).any (fun c => decide (c = U.length + 1))) with
      | true => rfl
      | false => exact absurd h hcon
    obtain ⟨c, hc, hce⟩ := List.any_eq_true.mp htrue
    obtain ⟨x, hx, rfl⟩ := List.mem_map.mp hc
    have hval : posOf U x = U.length + 1 := of_decide_eq_true hce
    have := hcode_lt x hx
    omega
  have hempty : ((l.map (fun x => posOf U x)).all
      (fun c => decide (c = U.length + 1))) = false := by
    cases l with
    | nil => exact absurd rfl hl
    | cons a t =>
      have hlt : posOf U a < U.length := hcode_lt a (List.mem_cons_self a t)
      have hdec : decide (posOf U a = U.length + 1) = false :=
        decide_eq_false (by omega)
      simp [List.all_cons, hdec]
  have hmax : ((l.map (fun x => posOf U x)).foldr max 0) + 1 = U.length := by
    have hle : (l.map (fun x => posOf U x)).foldr max 0 ≤ U.length - 1 := by
      refine foldr_max_le _ _ ?_
      intro c hc
      obtain ⟨y, hy, rfl⟩ := List.mem_map.mp hc
      have := hcode_lt y hy
      omega
    have hge : U.length - 1 ≤ (l.map (fun x => posOf U x)).foldr max 0 := by
      have hmem : nth U (U.length - 1) 0 ∈ U := nth_mem _ _ _ (by omega)
      have hpos : posOf U (nth U (U.length - 1) 0) = U.length - 1 :=
        posOf_nth_nodup U _ 0 hUnodup (by omega)
      refine le_foldr_max _ _ ?_
      exact List.mem_map.mpr ⟨nth U (U.length - 1) 0, (hmemUl _).mp hmem, hpos⟩
    omega
  show chunk_reduce_post K fv (factorize_1d (l.map some)) v = summary K l v
  unfold chunk_reduce_post
  rw [hgidx, hsent, hfound]
  dsimp only
  rw [hempty, hanyM, hmax]
  rw [if_neg (by simp)]
  rw [if_neg (by simp)]
  unfold summary npUnique
  rw [← hUdef]
  congr 1
  refine List.map_congr_left ?_
  intro g hg
  have hgU : g ∈ U := (List.mem_insertionSort _).mp hg
  have hgl : g ∈ l := (hmemUl g).mp hgU
  unfold npgAggregate
  rw [nth_map_range _ _ _ _ (posOf_lt_length hgU)]
  have hinj : ∀ x ∈ l, (posOf U x = posOf U g ↔ x = g) := by
    intro x hx
    constructor
    · intro hpp
      have h1 : nth U (posOf U x) 0 = x := nth_posOf ((hmemUl x).mpr hx) 0
      have h2 : nth U (posOf U g) 0 = g := nth_posOf hgU 0
      rw [hpp, h2] at h1
      exact h1.symm
    · intro hxg
      rw [hxg]
  rw [groupPairs_map_eq_labelPairs U g l v 0 hinj]
  have hne := labelPairs_ne_nil g l v 0 hgl hlen
  rw [if_neg (by simpa using hne)]

/-- `np.unique` of a groups array that may contain the NaN marker: distinct
real values ascending, then a single NaN (numpy collapses the NaNs of a
unique result). -/
def npUniqueO (l : List (Option Int)) : List (Option Int) :=
  (npUnique (l.filterMap id)).map some ++ (if none ∈ l then [none] else [])

/-- `_npg_combine` for a reduce-type aggregation with one intermediate
channel (core.py lines 643-751): form `np.unique` of all incoming groups,
reindex every input onto it filling with the intermediate fill value,
concatenate values and broadcast groups, and run `chunk_reduce` with the
combine kernel on the concatenation.  The `shape[-1] == 0` edge (every
input empty) yields explicitly empty output. -/
def npg_combine (Kc : List (Nat × Int) → Int) (fv : Int) (xs : List GroupResult) :
    GroupResult :=
  let ug := npUniqueO ((xs.map (fun x => x.groups)).flatten)
  let reindexed := xs.map (fun x =>
    match reindex_ x.inter x.groups ug (some fv) with
    | Except.ok r => r
    | Except.error _ => [])
  let bigGroups := (xs.map (fun _ => ug)).flatten
  let bigVals := reindexed.flatten
  if bigVals.length = 0 then ⟨[], []⟩
  else chunk_reduce Kc fv bigGroups bigVals

/-- A kernel that ignores positions: the lift of a plain value-list kernel.
Every reduce-type (non-arg) `numpy_groupies` kernel is of this shape. -/
def liftK (K0 : List Int → Int) : List (Nat × Int) → Int :=
  fun ps => K0 (ps.map (fun p => p.2))

/-- Folding a combine operation over a group's values (the combine kernels
"sum", "prod", ... are such folds). -/
def foldK (op : Int → Int → Int) (e : Int) : List Int → Int :=
  fun lvals => lvals.foldr op e

theorem posOf_map_some : ∀ (F : List Int) (g : Int),
    posOf (F.map some) (some g) = posOf F g := by
  intro F g
  induction F with
  | nil => rfl
  | cons a t ih =>
    by_cases hag : a = g
    · simp [posOf, hag]
    · have h2 : ¬ (some a = some g) := by simpa using hag
      simp [posOf, hag, h2, ih]

theorem mem_map_some_iff {g : Int} {F : List Int} : some g ∈ F.map some ↔ g ∈ F := by
  constructor
  · intro h
    obtain ⟨x, hx, he⟩ := List.mem_map.mp h
    have : x = g := by simpa using he
    exact this ▸ hx
  · intro h
    exact List.mem_map.mpr ⟨g, h, rfl⟩

theorem map_const_eq_replicate {α β : Type} (e : β) : ∀ (G : List α),
    G.map (fun _ => e) = List.replicate G.length e := by
  intro G
  induction G with
  | nil => rfl
  | cons a t ih => simp [ih, List.replicate_succ]

theorem map_nth_posOf_self (vals : List Int) : ∀ (F : List Int),
    F.Nodup → vals.length = F.length →
    F.map (fun g => nth vals (posOf F g) 0) = vals := by
  intro F hnd hlen
  refine nth_ext 0 _ _ (by simpa using hlen.symm) ?_
  intro k hk
  have hk2 : k < F.length := by simpa using hk
  have hk3 : k < vals.length := by omega
  rw [nth_map (fun g => nth vals (posOf F g) 0) F k 0 0 hk2]
  rw [posOf_nth_nodup F k 0 hnd hk2]

theorem labelPairs_map_snd_shift (g : Int) : ∀ (l v : List Int) (p q : Nat),
    (labelPairs l v g p).map (fun r => r.2) = (labelPairs l v g q).map (fun r => r.2) := by
  intro l
  induction l with
  | nil => intro v p q; rfl
  | cons a ls ih =>
    intro v p q
    cases v with
    | nil => rfl
    | cons w vs =>
      by_cases hag : a = g
      · simp [labelPairs, hag, ih vs (p + 1) (q + 1)]
      · simp [labelPairs, hag, ih vs (p + 1) (q + 1)]

theorem labelPairs_append (g : Int) : ∀ (l1 v1 l2 v2 : List Int) (p : Nat),
    v1.length = l1.length →
    labelPairs (l1 ++ l2) (v1 ++ v2) g p =
      labelPairs l1 v1 g p ++ labelPairs l2 v2 g (p + l1.length) := by
  intro l1
  induction l1 with
  | nil =>
    intro v1 l2 v2 p hlen
    have hv : v1 = [] := List.length_eq_zero.mp (by simpa using hlen)
    subst hv
    rw [List.nil_append, List.nil_append,
      show labelPairs ([] : List Int) [] g p = [] from rfl,
      List.nil_append, List.length_nil, Nat.add_zero]
  | cons a ls ih =>
    intro v1 l2 v2 p hlen
    cases v1 with
    | nil => simp at hlen
    | cons w vs =>
      have hlen2 : vs.length = ls.length := by simpa using hlen
      rw [List.cons_append, List.cons_append,
        show labelPairs (a :: (ls ++ l2)) (w :: (vs ++ v2)) g p =
          (if a = g then [(p, w)] else []) ++ labelPairs (ls ++ l2) (vs ++ v2) g (p + 1)
          from rfl,
        show labelPairs (a :: ls) (w :: vs) g p =
          (if a = g then [(p, w)] else []) ++ labelPairs ls vs g (p + 1) from rfl,
        ih vs l2 v2 (p + 1) hlen2, List.append_assoc]
      have harith : p + 1 + ls.length = p + (a :: ls).length := by
        simp only [List.length_cons]
        omega
      rw [harith]

theorem labelPairs_not_mem_nil (g : Int) : ∀ (l v : List Int) (p : Nat),
    g ∉ l → labelPairs l v g p = [] := by
  intro l
  induction l with
  | nil => intro v p _; rfl
  | cons a ls ih =>
    intro v p hg
    cases v with
    | nil => rfl
    | cons w vs =>
      have hag : ¬ (a = g) := fun h => hg (h ▸ List.mem_cons_self a ls)
      simp only [labelPairs, if_neg hag, List.nil_append]
      exact ih vs (p + 1) (fun h => hg (List.mem_cons_of_mem a h))

theorem labelPairs_nodup_snd_singleton (g : Int) : ∀ (U vals : List Int) (p : Nat),
    U.Nodup → g ∈ U → vals.length = U.length →
    (labelPairs U vals g p).map (fun r => r.2) = [nth vals (posOf U g) 0] := by
  intro U
  induction U with
  | nil => intro vals p _ hg _; cases hg
  | cons a t ih =>
    intro vals p hnd hg hlen
    cases vals with
    | nil => simp at hlen
    | cons w vs =>
      by_cases hag : a = g
      · have hgt : g ∉ t := by
          rw [← hag]
          exact (List.nodup_cons.mp hnd).1
        simp [labelPairs, hag, posOf, labelPairs_not_mem_nil g t vs (p + 1) hgt, nth]
      · have hgt : g ∈ t := by
          rcases List.mem_cons.mp hg with h | h
          · exact absurd h.symm hag
          · exact h
        have hpos : posOf (a :: t) g = posOf t g + 1 := by simp [posOf, hag]
        rw [show labelPairs (a :: t) (w :: vs) g p =
            (if a = g then [(p, w)] else []) ++ labelPairs t vs g (p + 1) from rfl,
          if_neg hag, List.nil_append,
          ih vs (p + 1) (List.nodup_cons.mp hnd).2 hgt (by simpa using hlen),
          hpos, nth_cons_succ]

theorem foldr_op_map_K0 (K0 : List Int → Int) (op : Int → Int → Int) (e : Int)
    (hnil : K0 [] = e) (hhom : ∀ a b, K0 (a ++ b) = op (K0 a) (K0 b)) :
    ∀ (ms : List (List Int)), (ms.map K0).foldr op e = K0 ms.flatten := by
  intro ms
  induction ms with
  | nil => simp [hnil]
  | cons m rest ih => simp [List.flatten, hhom, ih]

/-- The reindexing of one intermediate onto the union group set, as a
pointwise formula: keep the column of a present group, fill an absent one.
This is `reindex_intermediates` inside `_npg_combine`, for inputs whose
groups are real (non-NaN) labels. -/
theorem reindex_map_some_formula (vals F G : List Int) (e : Int)
    (hF : F.Nodup) (hlen : vals.length = F.length) :
    (match reindex_ vals (F.map some) (G.map some) (some e) with
     | Except.ok r => r
     | Except.error _ => []) =
      G.map (fun g => if g ∈ F then nth vals (posOf F g) 0 else e) := by
  classical
  unfold reindex_
  by_cases hshort : (F.map some).length = (G.map some).length ∧
      (((F.map some).zip (G.map some)).all (fun p => p.1 = p.2)) = true
  · rw [if_pos hshort]
    have hFG : F.map some = G.map some := eq_of_zip_all_eq _ _ hshort.1 hshort.2
    have hFG2 : F = G := by
      have h2 := congrArg (List.filterMap id) hFG
      rwa [filterMap_id_map_some, filterMap_id_map_some] at h2
    subst hFG2
    dsimp only
    symm
    calc F.map (fun g => if g ∈ F then nth vals (posOf F g) 0 else e)
        = F.map (fun g => nth vals (posOf F g) 0) :=
          List.map_congr_left (fun g hg => if_pos hg)
      _ = vals := map_nth_posOf_self vals F hF hlen
  · rw [if_neg hshort]
    by_cases hv0 : vals.length = 0
    · rw [if_pos hv0]
      have hF0 : F = [] := List.length_eq_zero.mp (by omega)
      subst hF0
      dsimp only
      rw [List.length_map]
      rw [show (G.map (fun g => if g ∈ ([] : List Int) then nth vals (posOf [] g) 0 else e)) =
        G.map (fun _ => e) from List.map_congr_left (fun g _ => if_neg (by simp))]
      rw [map_const_eq_replicate]
    · rw [if_neg hv0]
      dsimp only
      have hidx : (G.map some).map (argIndex (F.map some)) =
          G.map (fun g => if g ∈ F then (posOf F g : Int) else -1) := by
        rw [List.map_map]
        refine List.map_congr_left ?_
        intro g _
        show argIndex (F.map some) (some g) = _
        unfold argIndex
        by_cases hgF : g ∈ F
        · rw [if_pos (mem_map_some_iff.mpr hgF), if_pos hgF, posOf_map_some]
        · rw [if_neg (fun h => hgF (mem_map_some_iff.mp h)), if_neg hgF]
      rw [hidx]
      by_cases hany : ((G.map (fun g => if g ∈ F then (posOf F g : Int) else -1)).any
          (fun i => decide (i = -1))) = true
      · rw [if_pos hany]
        dsimp only
        rw [List.map_map]
        refine List.map_congr_left ?_
        intro g _
        show (fun i => if i = -1 then e else nth vals i.toNat 0)
          ((fun g => if g ∈ F then (posOf F g : Int) else -1) g) = _
        by_cases hgF : g ∈ F
        · simp only [if_pos hgF]
          rw [if_neg (show ¬ ((posOf F g : Int) = -1) from by omega), Int.toNat_natCast]
        · simp only [if_neg hgF]
          simp
      · rw [if_neg hany]
        have hallF : ∀ g ∈ G, g ∈ F := by
          intro g hg
          by_contra hgF
          refine hany (List.any_eq_true.mpr ⟨-1, ?_, by simp⟩)
          exact List.mem_map.mpr ⟨g, hg, by rw [if_neg hgF]⟩
        dsimp only
        rw [List.map_map]
        refine List.map_congr_left ?_
        intro g hg
        show (fun i => nth vals i.toNat 0)
          ((fun g => if g ∈ F then (posOf F g : Int) else -1) g) = _
        simp only [if_pos (hallF g hg)]
        rw [Int.toNat_natCast]

theorem flatten_map_some : ∀ (Ls : List (List Int)),
    (Ls.map (fun l => l.map some)).flatten = Ls.flatten.map some := by
  intro Ls
  induction Ls with
  | nil => rfl
  | cons l rest ih =>
    rw [List.map_cons, List.flatten_cons, ih, List.flatten_cons, List.map_append]

theorem nth_map_posOf (f : Int → Int) {F : List Int} {g : Int} (hg : g ∈ F) (d : Int) :
    nth (F.map f) (posOf F g) d = f g := by
  rw [nth_map f F (posOf F g) d 0 (posOf_lt_length hg), nth_posOf hg]

theorem mem_tile {α β : Type} (X : List α) : ∀ (ss : List β), ss ≠ [] →
    ∀ x, (x ∈ ((ss.map (fun _ => X)).flatten) ↔ x ∈ X) := by
  intro ss
  induction ss with
  | nil => intro h; exact absurd rfl h
  | cons s rest ih =>
    intro _ x
    cases rest with
    | nil => simp
    | cons s2 rest2 =>
      have := ih (by simp) x
      simp only [List.map_cons, List.flatten_cons, List.mem_append]
      constructor
      · rintro (h | h)
        · exact h
        · exact (this.mp (by simpa using h))
      · intro h
        exact Or.inl h

theorem flatten_length_congr {α β γ : Type} (f : γ → List α) (g : γ → List β) :
    ∀ (ss : List γ), (∀ s ∈ ss, (f s).length = (g s).length) →
    ((ss.map f).flatten).length = ((ss.map g).flatten).length := by
  intro ss
  induction ss with
  | nil => intro _; rfl
  | cons s rest ih =>
    intro h
    simp only [List.map_cons, List.flatten_cons, List.length_append]
    rw [h s (List.mem_cons_self _ _), ih (fun t ht => h t (List.mem_cons_of_mem _ ht))]

theorem snd_labelPairs_tile (g : Int) (UG : List Int) (hUGnd : UG.Nodup) (hg : g ∈ UG) :
    ∀ (rs : List (List Int)) (p : Nat), (∀ r ∈ rs, r.length = UG.length) →
    (labelPairs ((rs.map (fun _ => UG)).flatten) rs.flatten g p).map (fun q => q.2) =
      rs.map (fun r => nth r (posOf UG g) 0) := by
  intro rs
  induction rs with
  | nil => intro p _; rfl
  | cons r rest ih =>
    intro p hlen
    simp only [List.map_cons, List.flatten_cons]
    rw [labelPairs_append g UG r ((rest.map (fun _ => UG)).flatten) rest.flatten p
        (hlen r (List.mem_cons_self _ _)),
      List.map_append,
      labelPairs_nodup_snd_singleton g UG r p hUGnd hg (hlen r (List.mem_cons_self _ _)),
      ih (p + UG.length) (fun t ht => hlen t (List.mem_cons_of_mem _ ht))]
    rfl

theorem snd_labelPairs_flatten (g : Int) :
    ∀ (ss : List (List Int × List Int)) (p : Nat),
    (∀ s ∈ ss, s.2.length = s.1.length) →
    (labelPairs ((ss.map (fun s => s.1)).flatten) ((ss.map (fun s => s.2)).flatten) g p).map
        (fun q => q.2) =
      (ss.map (fun s => (labelPairs s.1 s.2 g 0).map (fun q => q.2))).flatten := by
  intro ss
  induction ss with
  | nil => intro p _; rfl
  | cons s rest ih =>
    intro p hlen
    simp only [List.map_cons, List.flatten_cons]
    rw [labelPairs_append g s.1 s.2 _ _ p (hlen s (List.mem_cons_self _ _)),
      List.map_append,
      ih (p + s.1.length) (fun t ht => hlen t (List.mem_cons_of_mem _ ht)),
      labelPairs_map_snd_shift g s.1 s.2 p 0]

/-- One `_npg_combine` call on per-segment summaries produces the summary
of the concatenated segments: the groups are the sorted union, and each
column is the fold of the combine operation over the per-segment partial
results (with the intermediate fill value for absent groups), which by the
kernel's homomorphism property equals the kernel of the concatenation. -/
theorem npg_combine_summaries (K0 : List Int → Int) (op : Int → Int → Int) (e : Int)
    (hnil : K0 [] = e) (hhom : ∀ a b, K0 (a ++ b) = op (K0 a) (K0 b))
    (ss : List (List Int × List Int)) (hne : ss ≠ [])
    (hblocks : ∀ s ∈ ss, s.1 ≠ [] ∧ s.2.length = s.1.length) :
    npg_combine (liftK (foldK op e)) e (ss.map (fun s => summary (liftK K0) s.1 s.2)) =
      summary (liftK K0) ((ss.map (fun s => s.1)).flatten)
        ((ss.map (fun s => s.2)).flatten) := by
  classical
  set L := (ss.map (fun s => s.1)).flatten with hLdef
  set UG := npUnique L with hUGdef
  have hLne : L ≠ [] := by
    obtain ⟨s0, rest, rfl⟩ := List.exists_cons_of_ne_nil hne
    intro h
    rw [hLdef] at h
    simp only [List.map_cons, List.flatten_cons, List.append_eq_nil] at h
    exact (hblocks s0 (List.mem_cons_self _ _)).1 h.1
  have hUGne : UG ≠ [] := by
    obtain ⟨a, t, hat⟩ := List.exists_cons_of_ne_nil hLne
    intro h
    have : a ∈ UG := by
      rw [hUGdef]
      exact mem_npUnique.mpr (hat ▸ List.mem_cons_self a t)
    rw [h] at this
    cases this
  have hUGnd : UG.Nodup := nodup_npUnique L
  have hUGpos : 0 < UG.length := by
    cases hU : UG with
    | nil => exact absurd hU hUGne
    | cons a t => simp
  have hgflat : ((List.map (fun x => x.groups)
        (List.map (fun s => summary (liftK K0) s.1 s.2) ss)).flatten)
      = ((ss.map (fun s => npUnique s.1)).flatten).map some := by
    rw [List.map_map]
    rw [show ((fun x => GroupResult.groups x) ∘ (fun s => summary (liftK K0) s.1 s.2))
      = fun s : List Int × List Int => (npUnique s.1).map some from rfl]
    rw [show ss.map (fun s : List Int × List Int => (npUnique s.1).map some)
      = (ss.map (fun s => npUnique s.1)).map (fun l => l.map some) from by
        rw [List.map_map]; rfl]
    rw [flatten_map_some]
  have hug : npUniqueO ((List.map (fun x => x.groups)
        (List.map (fun s => summary (liftK K0) s.1 s.2) ss)).flatten) = UG.map some := by
    rw [hgflat]
    unfold npUniqueO
    rw [if_neg (by
      intro h
      obtain ⟨x, _, hx⟩ := List.mem_map.mp h
      cases hx)]
    rw [List.append_nil, filterMap_id_map_some]
    refine congrArg (List.map some) ?_
    apply npUnique_eq_of_mem_iff
    intro x
    constructor
    · intro hx
      obtain ⟨l1, hl1, hx1⟩ := List.mem_flatten.mp hx
      obtain ⟨s, hs, rfl⟩ := List.mem_map.mp hl1
      exact List.mem_flatten.mpr ⟨s.1, List.mem_map.mpr ⟨s, hs, rfl⟩, mem_npUnique.mp hx1⟩
    · intro hx
      obtain ⟨l1, hl1, hx1⟩ := List.mem_flatten.mp hx
      obtain ⟨s, hs, rfl⟩ := List.mem_map.mp hl1
      exact List.mem_flatten.mpr ⟨npUnique s.1,
        List.mem_map.mpr ⟨s, hs, rfl⟩, mem_npUnique.mpr hx1⟩
  have hreidx : (List.map (fun x =>
        match reindex_ x.inter x.groups (UG.map some) (some e) with
        | Except.ok r => r
        | Except.error _ => [])
        (List.map (fun s => summary (liftK K0) s.1 s.2) ss)) =
      ss.map (fun s => UG.map (fun g =>
        if g ∈ npUnique s.1 then liftK K0 (labelPairs s.1 s.2 g 0) else e)) := by
    rw [List.map_map]
    refine List.map_congr_left ?_
    intro s _
    show (match reindex_ ((npUnique s.1).map (fun g => liftK K0 (labelPairs s.1 s.2 g 0)))
        ((npUnique s.1).map some) (UG.map some) (some e) with
      | Except.ok r => r
      | Except.error _ => []) = _
    rw [reindex_map_some_formula _ _ _ e (nodup_npUnique s.1) (by rw [List.length_map])]
    refine List.map_congr_left ?_
    intro g _
    by_cases hgs : g ∈ npUnique s.1
    · rw [if_pos hgs, if_pos hgs, nth_map_posOf _ hgs]
    · rw [if_neg hgs, if_neg hgs]
  unfold npg_combine
  dsimp only
  rw [hug, hreidx]
  rw [show (List.map (fun _ => UG.map some)
      (List.map (fun s => summary (liftK K0) s.1 s.2) ss)).flatten
    = ((ss.map (fun _ => UG)).flatten).map some from by
      rw [List.map_map,
        show ((fun _ => UG.map some) ∘ (fun s => summary (liftK K0) s.1 s.2))
          = fun s : List Int × List Int => ((fun _ : List Int × List Int => UG) s).map some
          from rfl,
        show ss.map (fun s : List Int × List Int =>
            ((fun _ : List Int × List Int => UG) s).map some)
          = (ss.map (fun _ => UG)).map (fun l => l.map some) from by
            rw [List.map_map]; rfl,
        flatten_map_some]]
  have hbig_ne : ¬ (((ss.map (fun s => UG.map (fun g =>
      if g ∈ npUnique s.1 then liftK K0 (labelPairs s.1 s.2 g 0) else e))).flatten).length = 0) := by
    obtain ⟨s0, rest, rfl⟩ := List.exists_cons_of_ne_nil hne
    simp only [List.map_cons, List.flatten_cons, List.length_append, List.length_map]
    omega
  rw [if_neg hbig_ne]
  have hTne : ((ss.map (fun _ => UG)).flatten) ≠ [] := by
    obtain ⟨s0, rest, rfl⟩ := List.exists_cons_of_ne_nil hne
    simp only [List.map_cons, List.flatten_cons]
    intro h
    rw [List.append_eq_nil] at h
    exact hUGne h.1
  have hlenTV : ((ss.map (fun s => UG.map (fun g =>
      if g ∈ npUnique s.1 then liftK K0 (labelPairs s.1 s.2 g 0) else e))).flatten).length
      = ((ss.map (fun _ => UG)).flatten).length := by
    apply flatten_length_congr
    intro s _
    rw [List.length_map]
  rw [chunk_reduce_no_missing _ _ _ _ hTne hlenTV]
  have hTU : npUnique ((ss.map (fun _ => UG)).flatten) = UG := by
    rw [hUGdef, hLdef]
    apply npUnique_eq_of_mem_iff
    intro x
    rw [mem_tile UG ss hne x]
    rw [show UG = npUnique L from hUGdef]
    rw [mem_npUnique]
  unfold summary
  rw [hTU]
  rw [show npUnique L = UG from hUGdef.symm]
  congr 1
  refine List.map_congr_left ?_
  intro g hgUG
  show liftK (foldK op e) (labelPairs ((ss.map (fun _ => UG)).flatten)
      ((ss.map (fun s => UG.map (fun g =>
        if g ∈ npUnique s.1 then liftK K0 (labelPairs s.1 s.2 g 0) else e))).flatten) g 0)
    = liftK K0 (labelPairs L ((ss.map (fun s => s.2)).flatten) g 0)
  rw [show liftK (foldK op e) (labelPairs ((ss.map (fun _ => UG)).flatten)
      ((ss.map (fun s => UG.map (fun g =>
        if g ∈ npUnique s.1 then liftK K0 (labelPairs s.1 s.2 g 0) else e))).flatten) g 0)
    = ((labelPairs ((ss.map (fun _ => UG)).flatten)
      ((ss.map (fun s => UG.map (fun g =>
        if g ∈ npUnique s.1 then liftK K0 (labelPairs s.1 s.2 g 0) else e))).flatten) g 0).map
        (fun q => q.2)).foldr op e from rfl]
  rw [show liftK K0 (labelPairs L ((ss.map (fun s => s.2)).flatten) g 0)
    = K0 ((labelPairs L ((ss.map (fun s => s.2)).flatten) g 0).map (fun q => q.2)) from rfl]
  rw [show (ss.map (fun _ => UG)) = ((ss.map (fun s => UG.map (fun g =>
      if g ∈ npUnique s.1 then liftK K0 (labelPairs s.1 s.2 g 0) else e))).map (fun _ => UG))
    from by rw [List.map_map]; rfl]
  rw [snd_labelPairs_tile g UG hUGnd hgUG _ 0 (by
    intro r hr
    obtain ⟨s, _, rfl⟩ := List.mem_map.mp hr
    rw [List.length_map])]
  rw [List.map_map]
  rw [show ((fun r => nth r (posOf UG g) 0) ∘ (fun s : List Int × List Int => UG.map (fun g =>
      if g ∈ npUnique s.1 then liftK K0 (labelPairs s.1 s.2 g 0) else e)))
    = fun s : List Int × List Int => nth (UG.map (fun g =>
      if g ∈ npUnique s.1 then liftK K0 (labelPairs s.1 s.2 g 0) else e)) (posOf UG g) 0
    from rfl]
  rw [List.map_congr_left (l := ss) (f := fun s : List Int × List Int =>
      nth (UG.map (fun g => if g ∈ npUnique s.1 then liftK K0 (labelPairs s.1 s.2 g 0) else e))
        (posOf UG g) 0)
    (g := fun s : List Int × List Int => K0 ((labelPairs s.1 s.2 g 0).map (fun q => q.2)))
    (by
      intro s _
      dsimp only
      rw [nth_map_posOf _ hgUG]
      by_cases hgs : g ∈ npUnique s.1
      · rw [if_pos hgs]
        rfl
      · rw [if_neg hgs]
        rw [labelPairs_not_mem_nil g s.1 s.2 0 (fun h => hgs (mem_npUnique.mpr h))]
        exact hnil.symm)]
  rw [show ss.map (fun s : List Int × List Int =>
      K0 ((labelPairs s.1 s.2 g 0).map (fun q => q.2)))
    = (ss.map (fun s : List Int × List Int =>
      (labelPairs s.1 s.2 g 0).map (fun q => q.2))).map K0 from by rw [List.map_map]; rfl]
  rw [foldr_op_map_K0 K0 op e hnil hhom]
  rw [hLdef]
  rw [snd_labelPairs_flatten g ss 0 (fun s hs => (hblocks s hs).2)]

/-- A combine tree over the blocks of a partition: a leaf is one block (its
labels and values, in order), an inner node is one `_npg_combine` call over
its children.  `_tree_reduce` builds such trees with arbitrary fan-out and
depth; the root aggregate runs `_npg_combine` before finalizing. -/
inductive CTree where
  | leaf (labels : List Int) (values : List Int) : CTree
  | node (ts : List CTree) : CTree

/-- The labels of the full (concatenated) partition under a tree. -/
def CTree.labelsOf : CTree → List Int
  | CTree.leaf l _ => l
  | CTree.node ts => (ts.attach.map (fun t => CTree.labelsOf t.1)).flatten
decreasing_by
  have := List.sizeOf_lt_of_mem t.2
  simp only [CTree.node.sizeOf_spec]
  omega

/-- The values of the full partition under a tree. -/
def CTree.valuesOf : CTree → List Int
  | CTree.leaf _ v => v
  | CTree.node ts => (ts.attach.map (fun t => CTree.valuesOf t.1)).flatten
decreasing_by
  have := List.sizeOf_lt_of_mem t.2
  simp only [CTree.node.sizeOf_spec]
  omega

/-- Evaluate the mapreduce tree: `chunk_reduce` at the leaves, `_npg_combine`
at the nodes, with chunk kernel `K0` and combine kernel the fold of `op`
with the intermediate fill value `e`. -/
def CTree.eval (K0 : List Int → Int) (op : Int → Int → Int) (e : Int) :
    CTree → GroupResult
  | CTree.leaf l v => chunk_reduce (liftK K0) e (l.map some) v
  | CTree.node ts =>
      npg_combine (liftK (foldK op e)) e
        (ts.attach.map (fun t => CTree.eval K0 op e t.1))
decreasing_by
  have := List.sizeOf_lt_of_mem t.2
  simp only [CTree.node.sizeOf_spec]
  omega

/-- A well-formed partition tree: blocks (dask chunks) are nonempty and
aligned with their values, and combines have at least one input. -/
inductive CTree.WF : CTree → Prop where
  | leaf : ∀ {l v : List Int}, l ≠ [] → v.length = l.length → CTree.WF (CTree.leaf l v)
  | node : ∀ {ts : List CTree}, ts ≠ [] → (∀ t ∈ ts, CTree.WF t) → CTree.WF (CTree.node ts)

theorem attach_map_fst {α β : Type} (l : List α) (f : α → β) :
    l.attach.map (fun t => f t.1) = l.map f :=
  List.attach_map_val l f

/-- Every well-formed combine tree evaluates to the summary of its full
partition (and the partition is nonempty and aligned). -/
theorem CTree.eval_eq_summary (K0 : List Int → Int) (op : Int → Int → Int) (e : Int)
    (hnil : K0 [] = e) (hhom : ∀ a b, K0 (a ++ b) = op (K0 a) (K0 b)) :
    ∀ (t : CTree), CTree.WF t →
      CTree.eval K0 op e t = summary (liftK K0) t.labelsOf t.valuesOf ∧
      t.labelsOf ≠ [] ∧ t.valuesOf.length = t.labelsOf.length := by
  intro t hwf
  induction hwf with
  | @leaf l v hl hlen =>
    refine ⟨?_, by simpa [CTree.labelsOf] using hl, by simp [CTree.labelsOf, CTree.valuesOf, hlen]⟩
    simp only [CTree.eval, CTree.labelsOf, CTree.valuesOf]
    exact chunk_reduce_no_missing (liftK K0) e l v hl hlen
  | @node ts hne hall ih =>
    have hevalmap : ts.map (CTree.eval K0 op e) =
        (ts.map (fun t => (CTree.labelsOf t, CTree.valuesOf t))).map
          (fun s => summary (liftK K0) s.1 s.2) := by
      rw [List.map_map]
      refine List.map_congr_left ?_
      intro u hu
      exact (ih u hu).1
    have hlabels : CTree.labelsOf (CTree.node ts) =
        ((ts.map (fun t => (CTree.labelsOf t, CTree.valuesOf t))).map
          (fun s => s.1)).flatten := by
      simp only [CTree.labelsOf]
      rw [attach_map_fst, List.map_map]
      rfl
    have hvalues : CTree.valuesOf (CTree.node ts) =
        ((ts.map (fun t => (CTree.labelsOf t, CTree.valuesOf t))).map
          (fun s => s.2)).flatten := by
      simp only [CTree.valuesOf]
      rw [attach_map_fst, List.map_map]
      rfl
    have hblocks : ∀ s ∈ ts.map (fun t => (CTree.labelsOf t, CTree.valuesOf t)),
        s.1 ≠ [] ∧ s.2.length = s.1.length := by
      intro s hs
      obtain ⟨u, hu, rfl⟩ := List.mem_map.mp hs
      exact ⟨(ih u hu).2.1, (ih u hu).2.2⟩
    have hssne : ts.map (fun t => (CTree.labelsOf t, CTree.valuesOf t)) ≠ [] := by
      intro h
      exact hne (List.map_eq_nil_iff.mp h)
    refine ⟨?_, ?_, ?_⟩
    · have heval : CTree.eval K0 op e (CTree.node ts) =
          npg_combine (liftK (foldK op e)) e
            ((ts.map (fun t => (CTree.labelsOf t, CTree.valuesOf t))).map
              (fun s => summary (liftK K0) s.1 s.2)) := by
        simp only [CTree.eval]
        rw [attach_map_fst ts (CTree.eval K0 op e), hevalmap]
      rw [heval, hlabels, hvalues,
        npg_combine_summaries K0 op e hnil hhom _ hssne hblocks]
    · rw [hlabels]
      obtain ⟨s0, rest, hcons⟩ :=
        List.exists_cons_of_ne_nil hssne
      rw [hcons]
      simp only [List.map_cons, List.flatten_cons]
      intro h
      rw [List.append_eq_nil] at h
      exact (hblocks s0 (by rw [hcons]; exact List.mem_cons_self _ _)).1 h.1
    · rw [hlabels, hvalues]
      exact flatten_length_congr _ _ _ (fun s hs => (hblocks s hs).2)

/-- `_finalize_results` (core.py lines 577-621) for an aggregation with
`finalize=None` and a trailing count channel kept for masking: apply the
`min_count` mask `np.where(counts >= min_count, result, fill_value)`, then
reindex onto `expected_groups` with `fill_value`; the expected groups
become the output group labels. -/
def finalize_results (res counts : GroupResult) (expected : Option (List Int))
    (fill_value : Int) (min_count : Option Nat) :
    Except String (List Int × List (Option Int)) :=
  let value := match min_count with
    | some m => (res.inter.zip counts.inter).map
        (fun p => if (m : Int) ≤ p.2 then p.1 else fill_value)
    | none => res.inter
  match expected with
  | none => Except.ok (value, res.groups)
  | some exp =>
      match reindex_ value res.groups (exp.map some) (some fill_value) with
      | Except.ok r => Except.ok (r, exp.map some)
      | Except.error err => Except.error err

/-- C1 -- chunk invariance of the `mapreduce` strategy: for every partition
of the array into nonempty blocks and every combine-tree shape over them,
the combined intermediate equals the single-block (unchunked) reduction,
for every kernel whose chunk stage is a `K0` and whose combine stage folds
`op` with identity `e` equal to the intermediate fill value; consequently
the finalized result (with the count channel evaluated the same way) is
identical for every `expected_groups` / `fill_value` / `min_count`
combination. -/
theorem mapreduce_chunk_invariance (K0 : List Int → Int) (op : Int → Int → Int) (e : Int)
    (hnil : K0 [] = e) (hhom : ∀ a b, K0 (a ++ b) = op (K0 a) (K0 b))
    (t : CTree) (hwf : CTree.WF t) :
    CTree.eval K0 op e t =
      CTree.eval K0 op e (CTree.leaf t.labelsOf t.valuesOf) ∧
    ∀ (expected : Option (List Int)) (fill_value : Int) (min_count : Option Nat),
      finalize_results (CTree.eval K0 op e t)
          (CTree.eval (fun lv => (lv.length : Int)) (fun a b => a + b) 0 t)
          expected fill_value min_count =
        finalize_results (CTree.eval K0 op e (CTree.leaf t.labelsOf t.valuesOf))
          (CTree.eval (fun lv => (lv.length : Int)) (fun a b => a + b) 0
            (CTree.leaf t.labelsOf t.valuesOf))
          expected fill_value min_count := by
  have h1 := CTree.eval_eq_summary K0 op e hnil hhom t hwf
  have hcnt := CTree.eval_eq_summary (fun lv => (lv.length : Int)) (fun a b => a + b) 0
    (by rfl) (fun a b => by dsimp only; rw [List.length_append]; push_cast; ring) t hwf
  have hleaf : CTree.eval K0 op e (CTree.leaf t.labelsOf t.valuesOf)
      = summary (liftK K0) t.labelsOf t.valuesOf := by
    simp only [CTree.eval]
    exact chunk_reduce_no_missing _ _ _ _ h1.2.1 h1.2.2
  have hcnt_leaf : CTree.eval (fun lv => (lv.length : Int)) (fun a b => a + b) 0
        (CTree.leaf t.labelsOf t.valuesOf)
      = summary (liftK (fun lv => (lv.length : Int))) t.labelsOf t.valuesOf := by
    simp only [CTree.eval]
    exact chunk_reduce_no_missing _ _ _ _ h1.2.1 h1.2.2
  refine ⟨?_, ?_⟩
  · rw [h1.1, hleaf]
  · intro expected fill_value min_count
    rw [h1.1, hleaf, hcnt.1, hcnt_leaf]

/-- Witness for C1: the spec's scenario, labels
`a a c c | c b b c | c b b f` (encoded `0 0 2 2 | 2 1 1 2 | 2 1 1 3`)
chunked `(4,4,4)`, all values one, kernel "sum": one three-way combine of
the three block results equals the single-block `(12,)` reduction, whose
group sums are `a=2, b=4, c=5, f=1`. -/
theorem mapreduce_chunk_invariance_witness :
    (CTree.eval (fun lv => lv.sum) (fun a b => a + b) 0
        (CTree.node [CTree.leaf [0, 0, 2, 2] [1, 1, 1, 1],
          CTree.leaf [2, 1, 1, 2] [1, 1, 1, 1],
          CTree.leaf [2, 1, 1, 3] [1, 1, 1, 1]]) =
      CTree.eval (fun lv => lv.sum) (fun a b => a + b) 0
        (CTree.leaf
          (CTree.labelsOf (CTree.node [CTree.leaf [0, 0, 2, 2] [1, 1, 1, 1],
            CTree.leaf [2, 1, 1, 2] [1, 1, 1, 1],
            CTree.leaf [2, 1, 1, 3] [1, 1, 1, 1]]))
          (CTree.valuesOf (CTree.node [CTree.leaf [0, 0, 2, 2] [1, 1, 1, 1],
            CTree.leaf [2, 1, 1, 2] [1, 1, 1, 1],
            CTree.leaf [2, 1, 1, 3] [1, 1, 1, 1]])))) ∧
    summary (liftK (fun lv => lv.sum)) [0, 0, 2, 2, 2, 1, 1, 2, 2, 1, 1, 3]
        (List.replicate 12 1) =
      ⟨[some 0, some 1, some 2, some 3], [2, 4, 5, 1]⟩ := by
  constructor
  · refine (mapreduce_chunk_invariance (fun lv => lv.sum) (fun a b => a + b) 0
      rfl (fun a b => List.sum_append)
      (CTree.node [CTree.leaf [0, 0, 2, 2] [1, 1, 1, 1],
        CTree.leaf [2, 1, 1, 2] [1, 1, 1, 1],
        CTree.leaf [2, 1, 1, 3] [1, 1, 1, 1]]) ?_).1
    refine CTree.WF.node (by simp) ?_
    intro u hu
    simp only [List.mem_cons, List.not_mem_nil, or_false] at hu
    rcases hu with rfl | rfl | rfl
    · exact CTree.WF.leaf (by decide) (by decide)
    · exact CTree.WF.leaf (by decide) (by decide)
    · exact CTree.WF.leaf (by decide) (by decide)
  · decide
